import Mathlib

/-!
# etcpak `BlockData.cpp`: block decoder and containers

A shallow embedding of `BlockData.cpp`: the decoding half (`ConvertByteOrder`,
`DecodePlanar`, `DecodeRGBPart`, `DecodeAlphaPart`, `DecodeRGB`, `DecodeRGBA`), the
constructors with `OpenForWriting` and `AdjustSizeForMipmaps`, and the dispatch of
`Process`; and the properties of them that the specification states.

Conventions.
* A `uint32_t`/`uint64_t` value is the natural number it denotes; operations that can
  wrap carry an explicit `% 2^32`.  A signed `int32_t` value is an `Int`; `toI32` and
  `toU32` are the two conversions between a bit pattern and a signed value.
* The destination of a decode is a `Raster`: the pixel memory addressed by word offset,
  together with a count of the stores made to every offset.
* Offsets into the raster (`j*w+i`, `dst += 4`, `m_size.x*3`) are computed in `Nat`:
  a raster that exists is far smaller than the range of the index types.
* `Tables.hpp` is not part of the sources, so the two modifier tables `g_table` and
  `g_alpha` are parameters of the decoders (signed entries).
* The constructors compute as the machine does: a `uint32_t` sum wraps mod `2^32`, an
  `int` product or sum that leaves the range of `int` wraps in two's complement (what
  the compiled code gives), `size_t` has 64 bits, and a header word stored into an `int`
  member is read as a signed value.  A failed `assert` makes the result `none`.
-/

namespace Etcpak

/-! ## Machine arithmetic -/

/-- The signed value of a 32-bit pattern (conversion to `int32_t`). -/
def toI32 (n : Nat) : Int :=
  if n % 4294967296 < 2147483648 then ((n % 4294967296 : Nat) : Int)
  else ((n % 4294967296 : Nat) : Int) - 4294967296

/-- The 32-bit pattern of a signed value (conversion to `uint32_t`). -/
def toU32 (x : Int) : Nat := (x % 4294967296).toNat

/-- Left shift of a `uint32_t` (also of an `int32_t`, on its bit pattern). -/
def shl32 (x k : Nat) : Nat := (x <<< k) % 4294967296

/-- Arithmetic right shift of an `int32_t`: the floor of the quotient by `2^k`. -/
def asr (x : Int) (k : Nat) : Int := x / (2 : Int) ^ k

/-- Modelled from the spec: `clampu8` is declared in `Math.hpp`, which is not among the
sources.  It takes an `int32_t` and clamps it to `[0,255]`. -/
def clampu8 (val : Int) : Nat :=
  if val < 0 then 0 else if 255 < val then 255 else val.toNat

/-- Counted loop `for (int i = 0; i < n; i++) s = body i s`. -/
def forLoop {σ : Type} (n : Nat) (body : Nat → σ → σ) (s : σ) : σ :=
  (List.range n).foldl (fun acc i => body i acc) s

/-! ## Byte order -/

/-- The 32-bit byte swap behind the `_bswap` macro (`bswap_32`). -/
def _bswap (x : Nat) : Nat :=
  ((x &&& 0xff000000) >>> 24) ||| ((x &&& 0x00ff0000) >>> 8) |||
    ((x &&& 0x0000ff00) <<< 8) ||| ((x &&& 0x000000ff) <<< 24)

/-- The 64-bit byte swap behind the `_bswap64` macro (`bswap_64`). -/
def _bswap64 (x : Nat) : Nat :=
  ((x &&& 0xff00000000000000) >>> 56) ||| ((x &&& 0x00ff000000000000) >>> 40) |||
    ((x &&& 0x0000ff0000000000) >>> 24) ||| ((x &&& 0x000000ff00000000) >>> 8) |||
    ((x &&& 0x00000000ff000000) <<< 8) ||| ((x &&& 0x0000000000ff0000) <<< 24) |||
    ((x &&& 0x000000000000ff00) <<< 40) ||| ((x &&& 0x00000000000000ff) <<< 56)

/-- `ConvertByteOrder`: the word is copied into `uint32_t word[2]` (`word[0]` the low
half on the little-endian targets of the code), each half is byte-swapped, and the two
are copied back. -/
def ConvertByteOrder (d : Nat) : Nat :=
  let word0 := d % 4294967296
  let word1 := (d >>> 32) % 4294967296
  _bswap word0 ||| (_bswap word1 <<< 32)

/-! ## Destination raster -/

/-- Pixel memory: `px a` is the 32-bit word at offset `a`, `wr a` the number of stores
made to offset `a`. -/
structure Raster where
  px : Nat → Nat
  wr : Nat → Nat

/-- A freshly allocated bitmap with contents `init`, nothing stored yet. -/
def Raster.fresh (init : Nat → Nat) : Raster := ⟨init, fun _ => 0⟩

/-- The store `dst[a] = v`. -/
def Raster.store (r : Raster) (a v : Nat) : Raster :=
  ⟨fun x => if x = a then v else r.px x, fun x => if x = a then r.wr x + 1 else r.wr x⟩

/-! ## Planar blocks -/

/-- `expand6`: `(value << 2) | (value >> 4)` on a `uint32_t`, returned as `int32_t`. -/
def expand6 (value : Nat) : Int :=
  toI32 (shl32 (value % 4294967296) 2 ||| (value % 4294967296) >>> 4)

/-- `expand7`: `(value << 1) | (value >> 6)` on a `uint32_t`, returned as `int32_t`. -/
def expand7 (value : Nat) : Int :=
  toI32 (shl32 (value % 4294967296) 1 ||| (value % 4294967296) >>> 6)

/-- Blue of the vertical control point. -/
def planarBV (block : Nat) : Int := expand6 ((block >>> (0 + 32)) &&& 0x3F)
/-- Green of the vertical control point. -/
def planarGV (block : Nat) : Int := expand7 ((block >>> (6 + 32)) &&& 0x7F)
/-- Red of the vertical control point. -/
def planarRV (block : Nat) : Int := expand6 ((block >>> (13 + 32)) &&& 0x3F)
/-- Blue of the horizontal control point. -/
def planarBH (block : Nat) : Int := expand6 ((block >>> (19 + 32)) &&& 0x3F)
/-- Green of the horizontal control point. -/
def planarGH (block : Nat) : Int := expand7 ((block >>> (25 + 32)) &&& 0x7F)

/-- Red of the horizontal control point (`rh0 | rh1`). -/
def planarRH (block : Nat) : Int :=
  let rh0 := (block >>> (32 - 32)) &&& 0x01
  let rh1 := (((block >>> (34 - 32)) &&& 0x1F) <<< 1) % 18446744073709551616
  expand6 (rh0 ||| rh1)

/-- Blue of the origin (`bo0 | bo1 | bo2`). -/
def planarBO (block : Nat) : Int :=
  let bo0 := (block >>> (39 - 32)) &&& 0x07
  let bo1 := (((block >>> (43 - 32)) &&& 0x3) <<< 3) % 18446744073709551616
  let bo2 := (((block >>> (48 - 32)) &&& 0x1) <<< 5) % 18446744073709551616
  expand6 (bo0 ||| bo1 ||| bo2)

/-- Green of the origin (`go0 | go1`). -/
def planarGO (block : Nat) : Int :=
  let go0 := (block >>> (49 - 32)) &&& 0x3F
  let go1 := (((block >>> (56 - 32)) &&& 0x01) <<< 6) % 18446744073709551616
  expand7 (go0 ||| go1)

/-- Red of the origin. -/
def planarRO (block : Nat) : Int := expand6 ((block >>> (57 - 32)) &&& 0x3F)

/-- One channel of a planar pixel:
`clampu8((i * (h - o) + j * (v - o) + 4 * o + 2) >> 2)`. -/
def planarChannel (o h v : Int) (i j : Nat) : Nat :=
  clampu8 (asr ((i : Int) * (h - o) + (j : Int) * (v - o) + 4 * o + 2) 2)

/-- The word stored for the planar pixel of column `i`, row `j`. -/
def planarPixel (block i j : Nat) : Nat :=
  let r := planarChannel (planarRO block) (planarRH block) (planarRV block) i j
  let g := planarChannel (planarGO block) (planarGH block) (planarGV block) i j
  let b := planarChannel (planarBO block) (planarBH block) (planarBV block) i j
  r ||| shl32 g 8 ||| shl32 b 16 ||| 0xFF000000

/-- `DecodePlanar( block, dst, w )`: rows `j` outside, columns `i` inside. -/
def DecodePlanar (block dst w : Nat) (r : Raster) : Raster :=
  forLoop 4 (fun j r1 =>
    forLoop 4 (fun i r2 => r2.store (dst + (j * w + i)) (planarPixel block i j)) r1) r

/-! ## Individual and differential blocks -/

/-- The condition `d & 0x2` on the normalised word: the `diff` bit. -/
def diffBit (d : Nat) : Bool := d &&& 0x2 != 0

/-- The condition `d & 0x1` on the normalised word: the `flip` bit. -/
def flipBit (d : Nat) : Bool := d &&& 0x1 != 0

/-- `r0 = ( d & 0xF8000000 ) >> 27`. -/
def diffR0 (d : Nat) : Nat := ((d &&& 0xF8000000) >>> 27) % 4294967296
/-- `g0 = ( d & 0x00F80000 ) >> 19`. -/
def diffG0 (d : Nat) : Nat := ((d &&& 0x00F80000) >>> 19) % 4294967296
/-- `b0 = ( d & 0x0000F800 ) >> 11`. -/
def diffB0 (d : Nat) : Nat := ((d &&& 0x0000F800) >>> 11) % 4294967296

/-- `dr = ( int32_t(d) << 5 ) >> 29`. -/
def diffDR (d : Nat) : Int := asr (toI32 (shl32 (d % 4294967296) 5)) 29
/-- `dg = ( int32_t(d) << 13 ) >> 29`. -/
def diffDG (d : Nat) : Int := asr (toI32 (shl32 (d % 4294967296) 13)) 29
/-- `db = ( int32_t(d) << 21 ) >> 29`. -/
def diffDB (d : Nat) : Int := asr (toI32 (shl32 (d % 4294967296) 21)) 29

/-- `r1 = int32_t(r0) + dr`. -/
def diffR1 (d : Nat) : Int := toI32 (diffR0 d) + diffDR d
/-- `g1 = int32_t(g0) + dg`. -/
def diffG1 (d : Nat) : Int := toI32 (diffG0 d) + diffDG d
/-- `b1 = int32_t(b0) + db`. -/
def diffB1 (d : Nat) : Int := toI32 (diffB0 d) + diffDB d

/-- The test `d & 0x2` followed by `(b1 < 0) || (b1 > 31)`: the word is handed to
`DecodePlanar`. -/
def takesPlanar (d : Nat) : Bool :=
  diffBit d && (decide (diffB1 d < 0) || decide (diffB1 d > 31))

/-- `( v << 3 ) | ( v >> 2 )` on a `uint32_t`. -/
def expand5u (v : Nat) : Nat := shl32 v 3 ||| v >>> 2

/-- `( v << 3 ) | ( v >> 2 )` on an `int32_t`, stored into a `uint32_t`. -/
def expand5s (v : Int) : Nat := shl32 (toU32 v) 3 ||| toU32 (asr v 2)

/-- The pair of expressions of the individual branch:
`( ( d & m ) >> hi ) | ( ( d & m ) >> lo )`, stored into a `uint32_t`. -/
def expand4 (d m hi lo : Nat) : Nat := (((d &&& m) >>> hi) ||| ((d &&& m) >>> lo)) % 4294967296

/-- The array `br[2]`. -/
def baseR (d k : Nat) : Nat :=
  if diffBit d then (if k = 0 then expand5u (diffR0 d) else expand5s (diffR1 d))
  else (if k = 0 then expand4 d 0xF0000000 24 28 else expand4 d 0x0F000000 20 24)

/-- The array `bg[2]`. -/
def baseG (d k : Nat) : Nat :=
  if diffBit d then (if k = 0 then expand5u (diffG0 d) else expand5s (diffG1 d))
  else (if k = 0 then expand4 d 0x00F00000 16 20 else expand4 d 0x000F0000 12 16)

/-- The array `bb[2]`. -/
def baseB (d k : Nat) : Nat :=
  if diffBit d then (if k = 0 then expand5u (diffB0 d) else expand5s (diffB1 d))
  else (if k = 0 then expand4 d 0x0000F000 8 12 else expand4 d 0x00000F00 4 8)

/-- The array `tcw[2]`: `( d & 0xE0 ) >> 5` and `( d & 0x1C ) >> 2`. -/
def tcw (d k : Nat) : Nat :=
  if k = 0 then ((d &&& 0xE0) >>> 5) % 4294967296 else ((d &&& 0x1C) >>> 2) % 4294967296

/-- The four spreading steps applied to `b1` and to `b2`. -/
def spread16 (b : Nat) : Nat :=
  let b := (b ||| shl32 b 8) &&& 0x00FF00FF
  let b := (b ||| shl32 b 4) &&& 0x0F0F0F0F
  let b := (b ||| shl32 b 2) &&& 0x33333333
  (b ||| shl32 b 1) &&& 0x55555555

/-- The interleaved index field `idx = b1 | ( b2 << 1 )`. -/
def pixelIndices (d : Nat) : Nat :=
  let b1 := ((d >>> 32) &&& 0xFFFF) % 4294967296
  let b2 := (d >>> 48) % 4294967296
  spread16 b1 ||| shl32 (spread16 b2) 1

/-- The word stored for one pixel from the three base channels `cr cg cb` of its
subblock and the modifier `mod`: the sums are `uint32_t`; when none has a bit above the
low eight (`~0xFF` is `0xFFFFFF00` as a `uint32_t`) they are packed as they are,
otherwise each goes through `clampu8`, whose parameter is an `int32_t`. -/
def modPixel (cr cg cb : Nat) (mod : Int) : Nat :=
  let r := (cr + toU32 mod) % 4294967296
  let g := (cg + toU32 mod) % 4294967296
  let b := (cb + toU32 mod) % 4294967296
  if (r ||| g ||| b) &&& 0xFFFFFF00 = 0 then
    r ||| shl32 g 8 ||| shl32 b 16 ||| 0xFF000000
  else
    clampu8 (toI32 r) ||| (clampu8 (toI32 g) <<< 8) ||| (clampu8 (toI32 b) <<< 16) |||
      0xFF000000

/-- The two pixel loops of `DecodeRGBPart` (lines 402 to 456) on the normalised word
`d`: columns `i` outside, rows `j` inside, `idx` shifted by two bits after every pixel.
With `flip` set the subblock of a pixel is `j/2`, otherwise `i/2`. -/
def decodeSubblocks (g_table : Nat → Nat → Int) (d dst w : Nat) (r : Raster) : Raster :=
  let idx := pixelIndices d
  if flipBit d then
    (forLoop 4 (fun i s1 =>
      forLoop 4 (fun j s2 =>
        let mod := g_table (tcw d (j / 2)) (s2.2 &&& 0x3)
        (s2.1.store (dst + (j * w + i))
            (modPixel (baseR d (j / 2)) (baseG d (j / 2)) (baseB d (j / 2)) mod),
          s2.2 >>> 2)) s1) (r, idx)).1
  else
    (forLoop 4 (fun i s1 =>
      let tbl := g_table (tcw d (i / 2))
      let cr := baseR d (i / 2)
      let cg := baseG d (i / 2)
      let cb := baseB d (i / 2)
      forLoop 4 (fun j s2 =>
        let mod := tbl (s2.2 &&& 0x3)
        (s2.1.store (dst + (j * w + i)) (modPixel cr cg cb mod), s2.2 >>> 2)) s1) (r, idx)).1

/-- `DecodeRGBPart( d, dst, w )`, with the table `g_table` as a parameter. -/
def DecodeRGBPart (g_table : Nat → Nat → Int) (d dst w : Nat) (r : Raster) : Raster :=
  let d := ConvertByteOrder d
  if takesPlanar d then DecodePlanar d dst w r
  else decodeSubblocks g_table d dst w r

/-! ## Alpha blocks -/

/-- The size of an image (`v2i`). -/
structure v2i where
  x : Nat
  y : Nat

/-- `BlockData::Type`. -/
inductive BlockType where
  | Etc1
  | Etc2_RGB
  | Etc2_RGBA
  | Dxt1
  deriving DecidableEq, Repr

/-- Byte `k` of a word (`k = 0` the least significant). -/
def byteAt (x k : Nat) : Nat := (x >>> (8 * k)) % 256

/-- The 64-bit word with its two 32-bit halves exchanged. -/
def swapHalves (x : Nat) : Nat := (x >>> 32) % 4294967296 + (x % 4294967296) * 4294967296

/-- The word with bytes `b0` (least significant) to `b7`. -/
def ofBytes (b0 b1 b2 b3 b4 b5 b6 b7 : Nat) : Nat :=
  b0 + 256 * b1 + 65536 * b2 + 16777216 * b3 + 4294967296 * b4 + 1099511627776 * b5
    + 281474976710656 * b6 + 72057594037927936 * b7

/-- A run of `n` stores: the `k`-th goes to `addr k` and stores `val k p`, where `p` is
the word found there. -/
def writeSeq (n : Nat) (addr : Nat → Nat) (val : Nat → Nat → Nat) (r : Raster) : Raster :=
  forLoop n (fun k acc => acc.store (addr k) (val k (acc.px (addr k)))) r

/-- Offset of the pixel of column `i`, row `j` of the tile at `dst` in a raster of
width `w`. -/
def tileAddr (dst w i j : Nat) : Nat := dst + (j * w + i)

/-- Bits `lo` to `lo + len - 1` of a word. -/
def bitField (x lo len : Nat) : Nat := x / 2 ^ lo % 2 ^ len

/-- Expansion of a `bits`-bit value to eight bits by repeating its top bits below it:
`(v << 2) | (v >> 4)` for six bits, `(v << 1) | (v >> 6)` for seven,
`(v << 3) | (v >> 2)` for five. -/
def expandTo8 (bits v : Nat) : Nat := (v <<< (8 - bits)) ||| (v >>> (2 * bits - 8))

/-- The value of a three-bit field read as a two's-complement number. -/
def sext3 (f : Nat) : Int := if f < 4 then (f : Int) else (f : Int) - 8

/-- The entries of a modifier table are signed values of magnitude at most `2^27`. -/
def SmallEntries (g : Nat → Nat → Int) : Prop :=
  ∀ t q, -134217728 ≤ g t q ∧ g t q ≤ 134217728

/-- A sample argument for the parameter `g_table`: the intensity table of the ETC1
format, row `t` holding `a, b, -a, -b`. -/
def etc1Table (t q : Nat) : Int :=
  let row : Int × Int :=
    match t with
    | 0 => (2, 8)
    | 1 => (5, 17)
    | 2 => (9, 29)
    | 3 => (13, 42)
    | 4 => (18, 60)
    | 5 => (24, 80)
    | 6 => (33, 106)
    | _ => (47, 183)
  match q with
  | 0 => row.1
  | 1 => row.2
  | 2 => -row.1
  | _ => -row.2

/-- The 64-bit pattern of a signed value (conversion of an `int` to `size_t`). -/
def toU64 (x : Int) : Nat := (x % 18446744073709551616).toNat

/-- Sum of two `size_t` values. -/
def add64 (a b : Nat) : Nat := (a + b) % 18446744073709551616

/-- Product of two `size_t` values. -/
def mul64 (a b : Nat) : Nat := (a * b) % 18446744073709551616

/-- Product of two `int` values that are not negative, with the result the compiled
code gives when the product leaves the range of `int` (two's complement wrap). -/
def mulInt (a b : Nat) : Int := toI32 (a * b)

/-- Sum of two `int` values, with two's complement wrap. -/
def addInt (a b : Int) : Int := toI32 (toU32 (a + b))

/-- The `v2i` member of a `BlockData` as the machine holds it: two `int32_t` coordinates,
which a header word from `2^31` on makes negative. -/
structure v2i32 where
  x : Int
  y : Int

/-- The members of a `BlockData` that its constructors set: `m_data` is the buffer, read
as 32-bit little-endian words; `m_dataOffset` and `m_maplen` are `size_t` values. -/
structure BlockData where
  m_data : Nat → Nat
  m_size : v2i32
  m_dataOffset : Nat
  m_maplen : Nat
  m_type : BlockType

/-- The `switch` of the PVR branch on the pixel format word. -/
def pvrType (fmt : Nat) : Option BlockType :=
  if fmt = 6 then some BlockType.Etc1
  else if fmt = 22 then some BlockType.Etc2_RGB
  else if fmt = 23 then some BlockType.Etc2_RGBA
  else none

/-- The `switch` of the KTX branch on the format identifier word. -/
def ktxType (fmt : Nat) : Option BlockType :=
  if fmt = 0x9274 then some BlockType.Etc2_RGB
  else if fmt = 0x9278 then some BlockType.Etc2_RGBA
  else none

/-- `BlockData::BlockData( const char* fn )` for a file of `len` bytes whose `k`-th
`uint32_t` word is `data32 k`.  A failed `assert` is `none`.  The size words are stored
into `int` members; `52 + *(data32+12)` is a `uint32_t` sum, and
`sizeof( uint32_t ) * 17 + *(data32+15)` a `size_t` sum. -/
def BlockData.ofFile (data32 : Nat → Nat) (len : Nat) : Option BlockData :=
  if data32 0 = 0x03525650 then
    (pvrType (data32 2)).map fun t =>
      { m_data := data32
        m_size := ⟨toI32 (data32 7), toI32 (data32 6)⟩
        m_dataOffset := (52 + data32 12) % 4294967296
        m_maplen := len
        m_type := t }
  else if data32 0 = 0x58544BAB then
    (ktxType (data32 7)).map fun t =>
      { m_data := data32
        m_size := ⟨toI32 (data32 9), toI32 (data32 10)⟩
        m_dataOffset := add64 (4 * 17) (data32 15)
        m_maplen := len
        m_type := t }
  else none

/-- The word `pixelformat[0]` that `OpenForWriting` stores for a type. -/
def pixelFormatWord (type : BlockType) : Nat :=
  match type with
  | BlockType.Etc1 => 6
  | BlockType.Etc2_RGB => 22
  | BlockType.Etc2_RGBA => 23
  | BlockType.Dxt1 => 7

/-- `OpenForWriting`: the new file is `len` zero bytes; the thirteen header words are
stored at its start, the `int` values `size.y`, `size.x` and `levels` as `uint32_t`.
The result is the mapped buffer, read as 32-bit words. -/
def OpenForWriting (len : Nat) (size : v2i) (levels : Nat) (type : BlockType) : Nat → Nat :=
  fun k =>
    if k * 4 < len then
      [0x03525650, 0, pixelFormatWord type, 0, 0, 0, size.y % 4294967296,
        size.x % 4294967296, 1, 1, 1, levels % 4294967296, 0].getD k 0
    else 0

/-- `max( 1, current / 2 )` on both coordinates. -/
def halve (current : v2i) : v2i := ⟨max 1 (current.x / 2), max 1 (current.y / 2)⟩

/-- The bytes added for a level: `std::max( 4, current.x ) * std::max( 4, current.y ) / 2`,
an `int` product and an `int` division (which truncates). -/
def mipLevelBytes (current : v2i) : Int :=
  Int.tdiv (mulInt (max 4 current.x) (max 4 current.y)) 2

/-- One turn of the loop of `AdjustSizeForMipmaps` on the pair `(len, current)`, with
`len += ...` an `int` sum; the failed `assert( current.x != 1 || current.y != 1 )` is
`none`. -/
def mipStep (st : Option (Int × v2i)) : Option (Int × v2i) :=
  st.bind fun s =>
    if s.2.x ≠ 1 ∨ s.2.y ≠ 1 then
      some (addInt s.1 (mipLevelBytes (halve s.2)), halve s.2)
    else none

/-- The loop of `AdjustSizeForMipmaps`, `for( int i=1; i<levels; i++ )`. -/
def mipLoop (size : v2i) (levels : Nat) : Option (Int × v2i) :=
  forLoop (levels - 1) (fun _ st => mipStep st) (some (0, size))

/-- `AdjustSizeForMipmaps( size, levels )`; a failed `assert` is `none`. -/
def AdjustSizeForMipmaps (size : v2i) (levels : Nat) : Option Int :=
  (mipLoop size levels).bind fun s =>
    if s.2.x = 1 ∧ s.2.y = 1 then some s.1 else none

/-- Modelled from the spec: `NumberOfMipLevels` is declared in `MipMap.hpp`, which is not
among the sources.  The level count of a mip-enabled image is
`floor(log2(max(width,height))) + 1`. -/
def NumberOfMipLevels (size : v2i) : Nat := Nat.log2 (max size.x size.y) + 1

/-- `BlockData::BlockData( const char* fn, const v2i& size, bool mipmap, Type type )`
for a size whose coordinates are not negative; the failed
`assert( m_size.x%4 == 0 && m_size.y%4 == 0 )` is `none`.  The pair is
`(levels, m_maplen)` after the `if( mipmap )`: `m_maplen` starts from the `int`
`m_size.x*m_size.y/2` and is a `size_t`. -/
def BlockData.create (size : v2i) (mipmap : Bool) (type : BlockType) : Option BlockData :=
  if size.x % 4 = 0 ∧ size.y % 4 = 0 then
    (if mipmap then
      (AdjustSizeForMipmaps size (NumberOfMipLevels size)).map fun a =>
        (NumberOfMipLevels size,
          add64 (toU64 (Int.tdiv (mulInt size.x size.y) 2)) (toU64 a))
    else some (1, toU64 (Int.tdiv (mulInt size.x size.y) 2))).map fun p =>
      { m_data :=
          OpenForWriting
            (add64 (if type = BlockType.Etc2_RGBA then mul64 p.2 2 else p.2) 52) size p.1 type
        m_size := ⟨size.x, size.y⟩
        m_dataOffset := 52
        m_maplen := add64 (if type = BlockType.Etc2_RGBA then mul64 p.2 2 else p.2) 52
        m_type := type }
  else none

/-- `BlockData::BlockData( const v2i& size, bool mipmap, Type type )` for a size whose
coordinates are not negative: the buffer is `new uint8_t[m_maplen]`, with contents
`init`; the failed `assert` on the size is `none`. -/
def BlockData.createHeap (init : Nat → Nat) (size : v2i) (mipmap : Bool) (type : BlockType) :
    Option BlockData :=
  if size.x % 4 = 0 ∧ size.y % 4 = 0 then
    (if mipmap then
      (AdjustSizeForMipmaps size (NumberOfMipLevels size)).map fun a =>
        add64 (toU64 (Int.tdiv (mulInt size.x size.y) 2)) (toU64 a)
    else some (toU64 (Int.tdiv (mulInt size.x size.y) 2))).map fun len =>
      { m_data := init
        m_size := ⟨size.x, size.y⟩
        m_dataOffset := 52
        m_maplen := add64 (if type = BlockType.Etc2_RGBA then mul64 len 2 else len) 52
        m_type := type }
  else none

/-! ## The mip chain in the words of the specification -/

/-- The specification's level `k` of an image: each coordinate is
`max(1, floor(coordinate / 2^k))`. -/
def specLevel (size : v2i) (k : Nat) : v2i :=
  ⟨max 1 (size.x / 2 ^ k), max 1 (size.y / 2 ^ k)⟩

/-- The specification's mip length for `L` levels: the sum for `k = 1..L-1` of
`max(4, max(1, floor(w/2^k))) * max(4, max(1, floor(h/2^k))) / 2`. -/
def specMipSum (size : v2i) (L : Nat) : Nat :=
  ((List.range (L - 1)).map fun i =>
    max 4 (max 1 (size.x / 2 ^ (i + 1))) * max 4 (max 1 (size.y / 2 ^ (i + 1))) / 2).sum

/-- The specification's factor `f`: 2 for `Etc2_RGBA`, 1 otherwise. -/
def sizeFactor (type : BlockType) : Nat := if type = BlockType.Etc2_RGBA then 2 else 1

/-- The bytes that hold the 4x4 tiles of a level as one 64-bit word each:
`8 * ceil(x/4) * ceil(y/4)`. -/
def tileBytes (current : v2i) : Nat := 8 * ((current.x + 3) / 4) * ((current.y + 3) / 4)

/-! ## Encode dispatch -/

/-- The channel selector of `Process`; the source names `Channels::Alpha`, the other
value is the colour channel. -/
inductive Channels where
  | RGB
  | Alpha
  deriving DecidableEq, Repr

/-- The compression kernels that `Process` and `ProcessRGBA` call. -/
inductive Kernel where
  | CompressEtc1Rgb
  | CompressEtc1RgbDither
  | CompressEtc1Alpha
  | CompressEtc2Alpha
  | CompressEtc2Rgb
  | CompressEtc2Rgba
  | CompressDxt1
  deriving DecidableEq, Repr

/-- `BlockData::Process`: the kernel that is called for the image type `m_type`, the
channel `type` and the flag `dither`; the failed `assert( false )` is `none`. -/
def Process (m_type : BlockType) (type : Channels) (dither : Bool) : Option Kernel :=
  if type = Channels.Alpha then
    if m_type ≠ BlockType.Etc1 then some Kernel.CompressEtc2Alpha
    else some Kernel.CompressEtc1Alpha
  else
    match m_type with
    | BlockType.Etc1 =>
      if dither then some Kernel.CompressEtc1RgbDither else some Kernel.CompressEtc1Rgb
    | BlockType.Etc2_RGB => some Kernel.CompressEtc2Rgb
    | BlockType.Dxt1 => some Kernel.CompressDxt1
    | _ => none

/-- `BlockData::ProcessRGBA`: `assert( m_type == Etc2_RGBA )`, then `CompressEtc2Rgba`. -/
def ProcessRGBA (m_type : BlockType) : Option Kernel :=
  if m_type = BlockType.Etc2_RGBA then some Kernel.CompressEtc2Rgba else none

/-! # Properties -/

/-! ## Bit fields as arithmetic -/

theorem and_field (x lo len : Nat) :
    x &&& ((2 ^ len - 1) <<< lo) = (x >>> lo % 2 ^ len) <<< lo := by
  apply Nat.eq_of_testBit_eq
  intro i
  simp only [Nat.testBit_and, Nat.testBit_shiftLeft, Nat.testBit_two_pow_sub_one,
    Nat.testBit_mod_two_pow, Nat.testBit_shiftRight]
  by_cases h : lo ≤ i
  · have : lo + (i - lo) = i := by omega
    simp [h, this, Bool.and_comm]
  · simp [h]

/-- A mask of `len` ones starting at bit `lo` selects the field `x / 2^lo % 2^len`. -/
theorem mask_eq (x m lo len : Nat) (h : m = (2 ^ len - 1) <<< lo) :
    x &&& m = x / 2 ^ lo % 2 ^ len * 2 ^ lo := by
  subst h
  rw [and_field, Nat.shiftLeft_eq, Nat.shiftRight_eq_div_pow]

/-- Bitwise or of a multiple of `2^k` with a value below `2^k` is their sum. -/
theorem lor_hi_lo (k : Nat) {x y : Nat} (hx : x % 2 ^ k = 0) (hy : y < 2 ^ k) :
    x ||| y = x + y := by
  have hx2 : x = 2 ^ k * (x / 2 ^ k) := by
    have := Nat.div_add_mod x (2 ^ k)
    omega
  rw [hx2]
  exact (Nat.mul_add_lt_is_or hy _).symm

theorem lor_lo_hi (k : Nat) {x y : Nat} (hy : y < 2 ^ k) (hx : x % 2 ^ k = 0) :
    y ||| x = y + x := by
  rw [Nat.or_comm, lor_hi_lo k hx hy, Nat.add_comm]

/-! ## Byte order -/

theorem bswap_arith (x : Nat) :
    _bswap x = x % 256 * 16777216 + x / 256 % 256 * 65536 + x / 65536 % 256 * 256
      + x / 16777216 % 256 := by
  unfold _bswap
  rw [mask_eq x 0xff000000 24 8 (by decide), mask_eq x 0x00ff0000 16 8 (by decide),
    mask_eq x 0x0000ff00 8 8 (by decide), mask_eq x 0x000000ff 0 8 (by decide)]
  simp only [Nat.shiftLeft_eq, Nat.shiftRight_eq_div_pow]
  norm_num
  simp (disch := omega) only [lor_lo_hi 8, lor_lo_hi 16, lor_lo_hi 24]
  omega

theorem bswap64_arith (x : Nat) :
    _bswap64 x = x % 256 * 72057594037927936 + x / 256 % 256 * 281474976710656
      + x / 65536 % 256 * 1099511627776 + x / 16777216 % 256 * 4294967296
      + x / 4294967296 % 256 * 16777216 + x / 1099511627776 % 256 * 65536
      + x / 281474976710656 % 256 * 256 + x / 72057594037927936 % 256 := by
  unfold _bswap64
  rw [mask_eq x 0xff00000000000000 56 8 (by decide),
    mask_eq x 0x00ff000000000000 48 8 (by decide),
    mask_eq x 0x0000ff0000000000 40 8 (by decide),
    mask_eq x 0x000000ff00000000 32 8 (by decide),
    mask_eq x 0x00000000ff000000 24 8 (by decide),
    mask_eq x 0x0000000000ff0000 16 8 (by decide),
    mask_eq x 0x000000000000ff00 8 8 (by decide),
    mask_eq x 0x00000000000000ff 0 8 (by decide)]
  simp only [Nat.shiftLeft_eq, Nat.shiftRight_eq_div_pow]
  norm_num
  simp (disch := omega) only [lor_lo_hi 8, lor_lo_hi 16, lor_lo_hi 24, lor_lo_hi 32,
    lor_lo_hi 40, lor_lo_hi 48, lor_lo_hi 56]
  omega

theorem bswap_lt (x : Nat) : _bswap x < 4294967296 := by
  rw [bswap_arith]; omega

theorem bswap64_lt (x : Nat) : _bswap64 x < 18446744073709551616 := by
  rw [bswap64_arith]; omega

theorem ConvertByteOrder_arith (d : Nat) :
    ConvertByteOrder d =
      _bswap (d % 4294967296) + _bswap (d / 4294967296 % 4294967296) * 4294967296 := by
  unfold ConvertByteOrder
  simp only [Nat.shiftLeft_eq, Nat.shiftRight_eq_div_pow]
  norm_num
  have h := bswap_lt (d % 4294967296)
  rw [lor_lo_hi 32 (by omega) (by omega)]

theorem ConvertByteOrder_lt (d : Nat) : ConvertByteOrder d < 18446744073709551616 := by
  have h1 := bswap_lt (d % 4294967296)
  have h2 := bswap_lt (d / 4294967296 % 4294967296)
  rw [ConvertByteOrder_arith]; omega

theorem bswap_bytes {b0 b1 b2 b3 : Nat} (h0 : b0 < 256) (h1 : b1 < 256) (h2 : b2 < 256)
    (h3 : b3 < 256) :
    _bswap (b0 + 256 * b1 + 65536 * b2 + 16777216 * b3)
      = b3 + 256 * b2 + 65536 * b1 + 16777216 * b0 := by
  rw [bswap_arith]; omega

theorem ConvertByteOrder_bytes {b0 b1 b2 b3 b4 b5 b6 b7 : Nat} (h0 : b0 < 256)
    (h1 : b1 < 256) (h2 : b2 < 256) (h3 : b3 < 256) (h4 : b4 < 256) (h5 : b5 < 256)
    (h6 : b6 < 256) (h7 : b7 < 256) :
    ConvertByteOrder (ofBytes b0 b1 b2 b3 b4 b5 b6 b7) = ofBytes b3 b2 b1 b0 b7 b6 b5 b4 := by
  have e1 : ofBytes b0 b1 b2 b3 b4 b5 b6 b7 % 4294967296
      = b0 + 256 * b1 + 65536 * b2 + 16777216 * b3 := by unfold ofBytes; omega
  have e2 : ofBytes b0 b1 b2 b3 b4 b5 b6 b7 / 4294967296 % 4294967296
      = b4 + 256 * b5 + 65536 * b6 + 16777216 * b7 := by unfold ofBytes; omega
  rw [ConvertByteOrder_arith, e1, e2, bswap_bytes h0 h1 h2 h3, bswap_bytes h4 h5 h6 h7]
  unfold ofBytes; omega

theorem bswap64_bytes {b0 b1 b2 b3 b4 b5 b6 b7 : Nat} (h0 : b0 < 256) (h1 : b1 < 256)
    (h2 : b2 < 256) (h3 : b3 < 256) (h4 : b4 < 256) (h5 : b5 < 256) (h6 : b6 < 256)
    (h7 : b7 < 256) :
    _bswap64 (ofBytes b0 b1 b2 b3 b4 b5 b6 b7) = ofBytes b7 b6 b5 b4 b3 b2 b1 b0 := by
  have e0 : ofBytes b0 b1 b2 b3 b4 b5 b6 b7 % 256 = b0 := by unfold ofBytes; omega
  have e1 : ofBytes b0 b1 b2 b3 b4 b5 b6 b7 / 256 % 256 = b1 := by unfold ofBytes; omega
  have e2 : ofBytes b0 b1 b2 b3 b4 b5 b6 b7 / 65536 % 256 = b2 := by unfold ofBytes; omega
  have e3 : ofBytes b0 b1 b2 b3 b4 b5 b6 b7 / 16777216 % 256 = b3 := by
    unfold ofBytes; omega
  have e4 : ofBytes b0 b1 b2 b3 b4 b5 b6 b7 / 4294967296 % 256 = b4 := by
    unfold ofBytes; omega
  have e5 : ofBytes b0 b1 b2 b3 b4 b5 b6 b7 / 1099511627776 % 256 = b5 := by
    unfold ofBytes; omega
  have e6 : ofBytes b0 b1 b2 b3 b4 b5 b6 b7 / 281474976710656 % 256 = b6 := by
    unfold ofBytes; omega
  have e7 : ofBytes b0 b1 b2 b3 b4 b5 b6 b7 / 72057594037927936 % 256 = b7 := by
    unfold ofBytes; omega
  rw [bswap64_arith, e0, e1, e2, e3, e4, e5, e6, e7]
  unfold ofBytes; omega

/-- Every 64-bit word is the word of its eight bytes. -/
theorem exists_ofBytes (d : Nat) (hd : d < 18446744073709551616) :
    ∃ b0 b1 b2 b3 b4 b5 b6 b7 : Nat, b0 < 256 ∧ b1 < 256 ∧ b2 < 256 ∧ b3 < 256 ∧ b4 < 256 ∧
      b5 < 256 ∧ b6 < 256 ∧ b7 < 256 ∧ d = ofBytes b0 b1 b2 b3 b4 b5 b6 b7 :=
  ⟨d % 256, d / 256 % 256, d / 65536 % 256, d / 16777216 % 256, d / 4294967296 % 256,
    d / 1099511627776 % 256, d / 281474976710656 % 256, d / 72057594037927936 % 256,
    by omega, by omega, by omega, by omega, by omega, by omega, by omega, by omega,
    by unfold ofBytes; omega⟩

theorem byteAt_ofBytes {b0 b1 b2 b3 b4 b5 b6 b7 : Nat} (h0 : b0 < 256) (h1 : b1 < 256)
    (h2 : b2 < 256) (h3 : b3 < 256) (h4 : b4 < 256) (h5 : b5 < 256) (h6 : b6 < 256)
    (h7 : b7 < 256) :
    byteAt (ofBytes b0 b1 b2 b3 b4 b5 b6 b7) 0 = b0 ∧
    byteAt (ofBytes b0 b1 b2 b3 b4 b5 b6 b7) 1 = b1 ∧
    byteAt (ofBytes b0 b1 b2 b3 b4 b5 b6 b7) 2 = b2 ∧
    byteAt (ofBytes b0 b1 b2 b3 b4 b5 b6 b7) 3 = b3 ∧
    byteAt (ofBytes b0 b1 b2 b3 b4 b5 b6 b7) 4 = b4 ∧
    byteAt (ofBytes b0 b1 b2 b3 b4 b5 b6 b7) 5 = b5 ∧
    byteAt (ofBytes b0 b1 b2 b3 b4 b5 b6 b7) 6 = b6 ∧
    byteAt (ofBytes b0 b1 b2 b3 b4 b5 b6 b7) 7 = b7 := by
  simp only [byteAt, ofBytes, Nat.shiftRight_eq_div_pow]
  norm_num
  refine ⟨?_, ?_, ?_, ?_, ?_, ?_, ?_, ?_⟩ <;> omega

theorem swapHalves_ofBytes {b0 b1 b2 b3 b4 b5 b6 b7 : Nat} (h0 : b0 < 256) (h1 : b1 < 256)
    (h2 : b2 < 256) (h3 : b3 < 256) (h4 : b4 < 256) (h5 : b5 < 256) (h6 : b6 < 256)
    (h7 : b7 < 256) :
    swapHalves (ofBytes b0 b1 b2 b3 b4 b5 b6 b7) = ofBytes b4 b5 b6 b7 b0 b1 b2 b3 := by
  simp only [swapHalves, ofBytes, Nat.shiftRight_eq_div_pow]
  norm_num
  omega

theorem ofBytes_lt {b0 b1 b2 b3 b4 b5 b6 b7 : Nat} (h0 : b0 < 256) (h1 : b1 < 256)
    (h2 : b2 < 256) (h3 : b3 < 256) (h4 : b4 < 256) (h5 : b5 < 256) (h6 : b6 < 256)
    (h7 : b7 < 256) : ofBytes b0 b1 b2 b3 b4 b5 b6 b7 < 18446744073709551616 := by
  unfold ofBytes; omega

/-- C10. `ConvertByteOrder` swaps the bytes of each 32-bit half in place (byte `k` goes to
position `k xor 3`, so each half of the result is the swapped same half of `d`), the
alpha normalisation `_bswap64` reverses all eight bytes (byte `k` goes to `7 - k`); each
of the two results is the other with its 32-bit halves exchanged, and each normalisation
applied twice gives `d` back. -/
theorem byte_order_normalisations (d : Nat) (hd : d < 18446744073709551616) :
    (∀ k, k < 8 → byteAt (ConvertByteOrder d) (k ^^^ 3) = byteAt d k) ∧
    (∀ k, k < 8 → byteAt (_bswap64 d) (7 - k) = byteAt d k) ∧
    ConvertByteOrder d % 4294967296 = _bswap (d % 4294967296) ∧
    ConvertByteOrder d / 4294967296 = _bswap (d / 4294967296) ∧
    ConvertByteOrder d < 18446744073709551616 ∧ _bswap64 d < 18446744073709551616 ∧
    _bswap64 d = swapHalves (ConvertByteOrder d) ∧
    ConvertByteOrder d = swapHalves (_bswap64 d) ∧
    ConvertByteOrder (ConvertByteOrder d) = d ∧ _bswap64 (_bswap64 d) = d := by
  have hlo := bswap_lt (d % 4294967296)
  have hhi : d / 4294967296 % 4294967296 = d / 4294967296 := by omega
  have harith := ConvertByteOrder_arith d
  rw [hhi] at harith
  have hlt1 := ConvertByteOrder_lt d
  have hlt2 := bswap64_lt d
  refine ⟨?_, ?_, by omega, by omega, hlt1, hlt2, ?_, ?_, ?_, ?_⟩ <;>
    obtain ⟨b0, b1, b2, b3, b4, b5, b6, b7, h0, h1, h2, h3, h4, h5, h6, h7, rfl⟩ :=
      exists_ofBytes d hd <;>
    have hc := ConvertByteOrder_bytes h0 h1 h2 h3 h4 h5 h6 h7 <;>
    have hs := bswap64_bytes h0 h1 h2 h3 h4 h5 h6 h7
  · obtain ⟨d0, d1, d2, d3, d4, d5, d6, d7⟩ := byteAt_ofBytes h0 h1 h2 h3 h4 h5 h6 h7
    obtain ⟨c0, c1, c2, c3, c4, c5, c6, c7⟩ := byteAt_ofBytes h3 h2 h1 h0 h7 h6 h5 h4
    intro k hk
    rw [hc]
    interval_cases k <;> simp_all
  · obtain ⟨d0, d1, d2, d3, d4, d5, d6, d7⟩ := byteAt_ofBytes h0 h1 h2 h3 h4 h5 h6 h7
    obtain ⟨s0, s1, s2, s3, s4, s5, s6, s7⟩ := byteAt_ofBytes h7 h6 h5 h4 h3 h2 h1 h0
    intro k hk
    rw [hs]
    interval_cases k <;> simp_all
  · rw [hc, hs, swapHalves_ofBytes h3 h2 h1 h0 h7 h6 h5 h4]
  · rw [hc, hs, swapHalves_ofBytes h7 h6 h5 h4 h3 h2 h1 h0]
  · rw [hc, ConvertByteOrder_bytes h3 h2 h1 h0 h7 h6 h5 h4]
  · rw [hs, bswap64_bytes h7 h6 h5 h4 h3 h2 h1 h0]

/-- The statement of `byte_order_normalisations` at the stored word `0x0102030405060708`. -/
theorem byte_order_normalisations_witness :
    (0x0102030405060708 : Nat) < 18446744073709551616 ∧
    ((∀ k, k < 8 → byteAt (ConvertByteOrder 0x0102030405060708) (k ^^^ 3)
        = byteAt 0x0102030405060708 k) ∧
    (∀ k, k < 8 → byteAt (_bswap64 0x0102030405060708) (7 - k)
        = byteAt 0x0102030405060708 k) ∧
    ConvertByteOrder 0x0102030405060708 % 4294967296
        = _bswap (0x0102030405060708 % 4294967296) ∧
    ConvertByteOrder 0x0102030405060708 / 4294967296
        = _bswap (0x0102030405060708 / 4294967296) ∧
    ConvertByteOrder 0x0102030405060708 < 18446744073709551616 ∧
    _bswap64 0x0102030405060708 < 18446744073709551616 ∧
    _bswap64 0x0102030405060708 = swapHalves (ConvertByteOrder 0x0102030405060708) ∧
    ConvertByteOrder 0x0102030405060708 = swapHalves (_bswap64 0x0102030405060708) ∧
    ConvertByteOrder (ConvertByteOrder 0x0102030405060708) = 0x0102030405060708 ∧
    _bswap64 (_bswap64 0x0102030405060708) = 0x0102030405060708) :=
  ⟨by decide, byte_order_normalisations 0x0102030405060708 (by decide)⟩

/-! ## Loops and stores -/

theorem forLoop_zero {σ : Type} (body : Nat → σ → σ) (s : σ) : forLoop 0 body s = s := rfl

theorem forLoop_succ {σ : Type} (n : Nat) (body : Nat → σ → σ) (s : σ) :
    forLoop (n + 1) body s = body n (forLoop n body s) := by
  simp [forLoop, List.range_succ, List.foldl_append]

theorem forLoop_four {σ : Type} (body : Nat → σ → σ) (s : σ) :
    forLoop 4 body s = body 3 (body 2 (body 1 (body 0 s))) := rfl

theorem writeSeq_succ (n : Nat) (addr : Nat → Nat) (val : Nat → Nat → Nat) (r : Raster) :
    writeSeq (n + 1) addr val r
      = (writeSeq n addr val r).store (addr n) (val n ((writeSeq n addr val r).px (addr n))) := by
  unfold writeSeq
  rw [forLoop_succ]

/-- A run of stores leaves every offset that is not one of its addresses as it was. -/
theorem writeSeq_other (n : Nat) (addr : Nat → Nat) (val : Nat → Nat → Nat) (r : Raster)
    (a : Nat) (h : ∀ k, k < n → a ≠ addr k) :
    (writeSeq n addr val r).px a = r.px a ∧ (writeSeq n addr val r).wr a = r.wr a := by
  induction n with
  | zero => exact ⟨rfl, rfl⟩
  | succ n ih =>
    have ih2 := ih (fun k hk => h k (by omega))
    have hn := h n (by omega)
    rw [writeSeq_succ]
    simp only [Raster.store, if_neg hn]
    exact ih2

/-- A run of stores to pairwise different addresses: the `k`-th address holds the `k`-th
value, computed from what was there at the start, and was stored to once more. -/
theorem writeSeq_at (n : Nat) (addr : Nat → Nat) (val : Nat → Nat → Nat) (r : Raster)
    (inj : ∀ k k2, k < n → k2 < n → addr k = addr k2 → k = k2) (k : Nat) (hk : k < n) :
    (writeSeq n addr val r).px (addr k) = val k (r.px (addr k)) ∧
      (writeSeq n addr val r).wr (addr k) = r.wr (addr k) + 1 := by
  induction n with
  | zero => omega
  | succ n ih =>
    rw [writeSeq_succ]
    by_cases hkn : k = n
    · subst hkn
      have ho := writeSeq_other k addr val r (addr k)
        (fun k2 hk2 heq => by have := inj k k2 (by omega) (by omega) heq; omega)
      simp only [Raster.store, if_true, ho.1, ho.2]
      exact ⟨trivial, trivial⟩
    · have hne : addr k ≠ addr n := fun heq => hkn (inj k n (by omega) (by omega) heq)
      simp only [Raster.store, if_neg hne]
      exact ih (fun a b ha hb => inj a b (by omega) (by omega)) (by omega)

/-- Two pixels of a tile in a raster at least four wide share an offset only when they
are the same pixel. -/
theorem tileAddr_inj {dst w i j i2 j2 : Nat} (hw : 4 ≤ w) (hi : i < 4) (hi2 : i2 < 4)
    (h : tileAddr dst w i j = tileAddr dst w i2 j2) : i = i2 ∧ j = j2 := by
  unfold tileAddr at h
  rcases Nat.lt_trichotomy j j2 with hj | hj | hj
  · have := Nat.mul_le_mul_right w (show j + 1 ≤ j2 by omega)
    rw [Nat.add_mul] at this
    omega
  · subst hj
    omega
  · have := Nat.mul_le_mul_right w (show j2 + 1 ≤ j by omega)
    rw [Nat.add_mul] at this
    omega

theorem decodeSubblocks_eq_writeSeq (g : Nat → Nat → Int) (d dst w : Nat) (r : Raster) :
    decodeSubblocks g d dst w r
      = writeSeq 16 (fun k => tileAddr dst w (k / 4) (k % 4))
          (fun k _ =>
            let s := if flipBit d then k % 4 / 2 else k / 4 / 2
            modPixel (baseR d s) (baseG d s) (baseB d s)
              (g (tcw d s) ((pixelIndices d >>> (2 * k)) &&& 0x3))) r := by
  unfold decodeSubblocks
  split <;> rfl

/-- Stores made column by column (`k`-th store: column `k / 4`, row `k % 4`) into a
raster at least four wide: the pixel of column `i`, row `j` receives the value of store
`4 * i + j`. -/
theorem colMajor_at (dst w : Nat) (val : Nat → Nat → Nat) (r : Raster) (hw : 4 ≤ w)
    (i j : Nat) (hi : i < 4) (hj : j < 4) :
    (writeSeq 16 (fun k => tileAddr dst w (k / 4) (k % 4)) val r).px (tileAddr dst w i j)
        = val (4 * i + j) (r.px (tileAddr dst w i j)) ∧
      (writeSeq 16 (fun k => tileAddr dst w (k / 4) (k % 4)) val r).wr (tileAddr dst w i j)
        = r.wr (tileAddr dst w i j) + 1 := by
  have h := writeSeq_at 16 (fun k => tileAddr dst w (k / 4) (k % 4)) val r
    (fun k k2 hk hk2 heq => by
      have := tileAddr_inj hw (by omega) (by omega) heq
      omega) (4 * i + j) (by omega)
  have e1 : (4 * i + j) / 4 = i := by omega
  have e2 : (4 * i + j) % 4 = j := by omega
  simp only [e1, e2] at h
  exact h

theorem and_low (x m len : Nat) (h : m = 2 ^ len - 1) : x &&& m = x % 2 ^ len := by
  subst h; exact Nat.and_pow_two_sub_one_eq_mod x len

theorem toI32_small (n : Nat) (h : n < 2147483648) : toI32 n = (n : Int) := by
  unfold toI32
  have : n % 4294967296 = n := by omega
  rw [this, if_pos h]

theorem shl32_small (x k : Nat) (h : x <<< k < 4294967296) : shl32 x k = x <<< k := by
  unfold shl32; exact Nat.mod_eq_of_lt h

theorem clampu8_le (v : Int) : clampu8 v ≤ 255 := by
  unfold clampu8; split
  · omega
  · split <;> omega

theorem clampu8_of_range (v : Int) (h0 : 0 ≤ v) (h1 : v ≤ 255) : clampu8 v = v.toNat := by
  unfold clampu8
  rw [if_neg (by omega), if_neg (by omega)]

theorem expandTo8_lt (bits v : Nat) (hb : bits ≤ 8) (hv : v < 2 ^ bits) :
    expandTo8 bits v < 256 := by
  unfold expandTo8
  apply Nat.or_lt_two_pow (n := 8)
  · rw [Nat.shiftLeft_eq]
    calc v * 2 ^ (8 - bits) < 2 ^ bits * 2 ^ (8 - bits) :=
          Nat.mul_lt_mul_of_pos_right hv (Nat.pow_pos (by decide))
      _ = 2 ^ 8 := by rw [← Nat.pow_add]; congr 1; omega
  · rw [Nat.shiftRight_eq_div_pow]
    exact Nat.lt_of_le_of_lt (Nat.div_le_self _ _)
      (Nat.lt_of_lt_of_le hv (Nat.pow_le_pow_right (by decide) hb))

theorem bitField_lt (x lo len : Nat) : bitField x lo len < 2 ^ len :=
  Nat.mod_lt _ (Nat.pow_pos (by decide))

theorem shr_and_low (x lo m len : Nat) (h : m = 2 ^ len - 1) :
    (x >>> lo) &&& m = bitField x lo len := by
  rw [and_low _ m len h, Nat.shiftRight_eq_div_pow]; rfl

theorem and_shr_field (d m lo len : Nat) (h : m = (2 ^ len - 1) <<< lo) :
    (d &&& m) >>> lo = bitField d lo len := by
  rw [mask_eq d m lo len h, Nat.shiftRight_eq_div_pow,
    Nat.mul_div_cancel _ (Nat.pow_pos (by decide))]
  rfl

theorem diffBit_iff (d : Nat) : diffBit d = true ↔ bitField d 1 1 = 1 := by
  unfold diffBit
  rw [mask_eq d 0x2 1 1 (by decide)]
  have h := bitField_lt d 1 1
  unfold bitField at *
  simp only [bne_iff_ne, ne_eq]
  omega

theorem diffR0_eq (d : Nat) : diffR0 d = bitField d 27 5 := by
  have h := bitField_lt d 27 5
  unfold diffR0
  rw [and_shr_field d 0xF8000000 27 5 (by decide)]
  omega

theorem diffG0_eq (d : Nat) : diffG0 d = bitField d 19 5 := by
  have h := bitField_lt d 19 5
  unfold diffG0
  rw [and_shr_field d 0x00F80000 19 5 (by decide)]
  omega

theorem diffB0_eq (d : Nat) : diffB0 d = bitField d 11 5 := by
  have h := bitField_lt d 11 5
  unfold diffB0
  rw [and_shr_field d 0x0000F800 11 5 (by decide)]
  omega

theorem diffDR_eq (d : Nat) : diffDR d = sext3 (bitField d 24 3) := by
  unfold diffDR asr toI32 shl32 sext3 bitField
  simp only [Nat.shiftLeft_eq]
  norm_num
  split_ifs <;> omega

theorem diffDG_eq (d : Nat) : diffDG d = sext3 (bitField d 16 3) := by
  unfold diffDG asr toI32 shl32 sext3 bitField
  simp only [Nat.shiftLeft_eq]
  norm_num
  split_ifs <;> omega

theorem diffDB_eq (d : Nat) : diffDB d = sext3 (bitField d 8 3) := by
  unfold diffDB asr toI32 shl32 sext3 bitField
  simp only [Nat.shiftLeft_eq]
  norm_num
  split_ifs <;> omega

theorem sext3_range (f : Nat) (h : f < 8) : -4 ≤ sext3 f ∧ sext3 f ≤ 3 := by
  unfold sext3; split <;> omega

/-! ## Base colours -/

theorem diffR1_eq (d : Nat) : diffR1 d = (bitField d 27 5 : Int) + sext3 (bitField d 24 3) := by
  have h := bitField_lt d 27 5
  unfold diffR1
  rw [diffR0_eq, diffDR_eq, toI32_small _ (by omega)]

theorem diffG1_eq (d : Nat) : diffG1 d = (bitField d 19 5 : Int) + sext3 (bitField d 16 3) := by
  have h := bitField_lt d 19 5
  unfold diffG1
  rw [diffG0_eq, diffDG_eq, toI32_small _ (by omega)]

theorem diffB1_eq (d : Nat) : diffB1 d = (bitField d 11 5 : Int) + sext3 (bitField d 8 3) := by
  have h := bitField_lt d 11 5
  unfold diffB1
  rw [diffB0_eq, diffDB_eq, toI32_small _ (by omega)]

theorem expand5s_of_range (v : Int) (h0 : 0 ≤ v) (h1 : v ≤ 31) :
    expand5s v = expandTo8 5 v.toNat := by
  interval_cases v <;> decide

theorem expand5u_eq (v : Nat) (hv : v < 32) : expand5u v = expandTo8 5 v := by
  unfold expand5u
  rw [shl32_small v 3 (by rw [Nat.shiftLeft_eq]; omega)]
  rfl

theorem expand4_eq (d m p : Nat) (hp : 4 ≤ p) (hm : m = (2 ^ 4 - 1) <<< p) :
    expand4 d m (p - 4) p = 17 * bitField d p 4 := by
  have hf := bitField_lt d p 4
  have e : ∀ f : Nat, f * 2 ^ p / 2 ^ (p - 4) = f * 16 := by
    intro f
    have : 2 ^ p = 2 ^ 4 * 2 ^ (p - 4) := by rw [← Nat.pow_add]; congr 1; omega
    rw [this, ← Nat.mul_assoc, Nat.mul_div_cancel _ (Nat.pow_pos (by decide))]
    rfl
  unfold expand4
  rw [and_shr_field d m p 4 hm, mask_eq d m p 4 hm, Nat.shiftRight_eq_div_pow, e]
  unfold bitField at hf ⊢
  rw [lor_hi_lo 4 (by omega) hf]
  omega

theorem base_individual (d : Nat) (h : diffBit d = false) :
    baseR d 0 = 17 * bitField d 28 4 ∧ baseR d 1 = 17 * bitField d 24 4 ∧
    baseG d 0 = 17 * bitField d 20 4 ∧ baseG d 1 = 17 * bitField d 16 4 ∧
    baseB d 0 = 17 * bitField d 12 4 ∧ baseB d 1 = 17 * bitField d 8 4 := by
  unfold baseR baseG baseB
  simp only [h, if_true, if_false, Bool.false_eq_true, one_ne_zero]
  exact ⟨expand4_eq d 0xF0000000 28 (by decide) (by decide),
    expand4_eq d 0x0F000000 24 (by decide) (by decide),
    expand4_eq d 0x00F00000 20 (by decide) (by decide),
    expand4_eq d 0x000F0000 16 (by decide) (by decide),
    expand4_eq d 0x0000F000 12 (by decide) (by decide),
    expand4_eq d 0x00000F00 8 (by decide) (by decide)⟩

theorem and_eq_zero_of_or (a b m : Nat) (h : (a ||| b) &&& m = 0) :
    a &&& m = 0 ∧ b &&& m = 0 := by
  constructor <;>
  · apply Nat.eq_of_testBit_eq
    intro i
    have hi := congrArg (fun x => Nat.testBit x i) h
    simp only [Nat.testBit_and, Nat.testBit_or, Nat.zero_testBit, Bool.and_eq_false_imp,
      Bool.or_eq_true] at hi ⊢
    intro hx
    first
      | exact hi (Or.inl hx)
      | exact hi (Or.inr hx)

theorem lt_256_of_hi24 (x : Nat) (hx : x < 4294967296) (h : x &&& 0xFFFFFF00 = 0) :
    x < 256 := by
  rw [mask_eq x 0xFFFFFF00 8 24 (by decide)] at h
  omega

theorem clampu8_toI32_small (x : Nat) (hx : x < 256) : clampu8 (toI32 x) = x := by
  rw [toI32_small x (by omega), clampu8_of_range _ (by omega) (by omega), Int.toNat_ofNat]

/-- The unclamped path and the clamping path of a pixel store give the same word: the
clamped signed readings of the three 32-bit sums, packed. -/
theorem modPixel_eq (cr cg cb : Nat) (mod : Int) :
    modPixel cr cg cb mod
      = clampu8 (toI32 ((cr + toU32 mod) % 4294967296)) |||
        (clampu8 (toI32 ((cg + toU32 mod) % 4294967296)) <<< 8) |||
        (clampu8 (toI32 ((cb + toU32 mod) % 4294967296)) <<< 16) ||| 0xFF000000 := by
  unfold modPixel
  simp only []
  split
  · rename_i hc
    obtain ⟨hrg, hb⟩ := and_eq_zero_of_or _ _ _ hc
    obtain ⟨hr, hg⟩ := and_eq_zero_of_or _ _ _ hrg
    have r := lt_256_of_hi24 _ (Nat.mod_lt _ (by decide)) hr
    have g := lt_256_of_hi24 _ (Nat.mod_lt _ (by decide)) hg
    have b := lt_256_of_hi24 _ (Nat.mod_lt _ (by decide)) hb
    rw [clampu8_toI32_small _ r, clampu8_toI32_small _ g, clampu8_toI32_small _ b,
      shl32_small _ 8 (by rw [Nat.shiftLeft_eq]; omega),
      shl32_small _ 16 (by rw [Nat.shiftLeft_eq]; omega)]
  · rfl

/-- With the diff bit clear, or with it set and the three sums in `[0,31]`, the base
channels are eight-bit values. -/
theorem base_le_255 (n s : Nat) (hs : s ≤ 1)
    (h : bitField n 1 1 = 0 ∨
      ((0 ≤ diffR1 n ∧ diffR1 n ≤ 31) ∧ (0 ≤ diffG1 n ∧ diffG1 n ≤ 31) ∧
        (0 ≤ diffB1 n ∧ diffB1 n ≤ 31))) :
    baseR n s ≤ 255 ∧ baseG n s ≤ 255 ∧ baseB n s ≤ 255 := by
  by_cases hd : diffBit n = true
  · have hbit := (diffBit_iff n).1 hd
    rcases h with h | ⟨hr, hg, hb⟩
    · omega
    · have hs2 : s = 0 ∨ s = 1 := by omega
      rcases hs2 with rfl | rfl
      · unfold baseR baseG baseB
        simp only [hd, if_true]
        rw [diffR0_eq, diffG0_eq, diffB0_eq,
          expand5u_eq _ (bitField_lt n 27 5), expand5u_eq _ (bitField_lt n 19 5),
          expand5u_eq _ (bitField_lt n 11 5)]
        exact ⟨Nat.le_of_lt_succ (expandTo8_lt 5 _ (by decide) (bitField_lt n 27 5)),
          Nat.le_of_lt_succ (expandTo8_lt 5 _ (by decide) (bitField_lt n 19 5)),
          Nat.le_of_lt_succ (expandTo8_lt 5 _ (by decide) (bitField_lt n 11 5))⟩
      · unfold baseR baseG baseB
        simp only [hd, if_true, one_ne_zero, if_false]
        rw [expand5s_of_range _ hr.1 hr.2, expand5s_of_range _ hg.1 hg.2,
          expand5s_of_range _ hb.1 hb.2]
        exact ⟨Nat.le_of_lt_succ (expandTo8_lt 5 _ (by decide) (by omega)),
          Nat.le_of_lt_succ (expandTo8_lt 5 _ (by decide) (by omega)),
          Nat.le_of_lt_succ (expandTo8_lt 5 _ (by decide) (by omega))⟩
  · have hd2 : diffBit n = false := by simpa using hd
    obtain ⟨r0, r1, g0, g1, b0, b1⟩ := base_individual n hd2
    have f1 := bitField_lt n 28 4
    have f2 := bitField_lt n 24 4
    have f3 := bitField_lt n 20 4
    have f4 := bitField_lt n 16 4
    have f5 := bitField_lt n 12 4
    have f6 := bitField_lt n 8 4
    have hs2 : s = 0 ∨ s = 1 := by omega
    rcases hs2 with rfl | rfl
    · rw [r0, g0, b0]; omega
    · rw [r1, g1, b1]; omega

/-! ## Individual and differential tiles -/

theorem decodeSubblocks_px (g : Nat → Nat → Int) (d dst w : Nat) (r : Raster) (hw : 4 ≤ w)
    (i j : Nat) (hi : i < 4) (hj : j < 4) :
    (decodeSubblocks g d dst w r).px (tileAddr dst w i j)
        = modPixel (baseR d (if flipBit d then j / 2 else i / 2))
            (baseG d (if flipBit d then j / 2 else i / 2))
            (baseB d (if flipBit d then j / 2 else i / 2))
            (g (tcw d (if flipBit d then j / 2 else i / 2))
              (bitField (pixelIndices d) (2 * (4 * i + j)) 2)) ∧
      (decodeSubblocks g d dst w r).wr (tileAddr dst w i j)
        = r.wr (tileAddr dst w i j) + 1 := by
  have h := colMajor_at dst w (fun k _ =>
      let s := if flipBit d then k % 4 / 2 else k / 4 / 2
      modPixel (baseR d s) (baseG d s) (baseB d s)
        (g (tcw d s) ((pixelIndices d >>> (2 * k)) &&& 0x3))) r hw i j hi hj
  have e1 : (4 * i + j) / 4 = i := by omega
  have e2 : (4 * i + j) % 4 = j := by omega
  rw [decodeSubblocks_eq_writeSeq]
  refine ⟨h.1.trans ?_, h.2⟩
  simp only [e1, e2, shr_and_low _ _ 0x3 2 (by decide)]

theorem etc1Table_small : SmallEntries etc1Table := by
  intro t q
  unfold etc1Table
  split <;> split <;> exact ⟨by decide, by decide⟩

theorem takesPlanar_iff (n : Nat) :
    takesPlanar n = true ↔
      bitField n 1 1 = 1 ∧
        ((bitField n 11 5 : Int) + sext3 (bitField n 8 3) < 0 ∨
          31 < (bitField n 11 5 : Int) + sext3 (bitField n 8 3)) := by
  unfold takesPlanar
  rw [Bool.and_eq_true, Bool.or_eq_true, decide_eq_true_iff, decide_eq_true_iff, diffBit_iff,
    diffB1_eq]

theorem DecodeRGBPart_planar (g_table : Nat → Nat → Int) (d dst w : Nat) (r : Raster)
    (h : takesPlanar (ConvertByteOrder d) = true) :
    DecodeRGBPart g_table d dst w r = DecodePlanar (ConvertByteOrder d) dst w r := by
  unfold DecodeRGBPart
  simp only [h, if_true]

theorem DecodeRGBPart_subblocks (g_table : Nat → Nat → Int) (d dst w : Nat) (r : Raster)
    (h : takesPlanar (ConvertByteOrder d) = false) :
    DecodeRGBPart g_table d dst w r
      = decodeSubblocks g_table (ConvertByteOrder d) dst w r := by
  unfold DecodeRGBPart
  simp only [h, Bool.false_eq_true, if_false]

/-- C3. `DecodeRGBPart` hands the normalised word to `DecodePlanar` exactly when the diff
bit (bit 1) is set and `b0 + db` lies outside `[0,31]`, `b0` being bits 11..15 and `db`
the two's-complement value of bits 8..10; the raster it then produces is the one
`DecodePlanar` produces for the same normalised word, and in every other case it is the
one of the two subblock loops.  The decode is a total function of its inputs. -/
theorem planar_fallback (g_table : Nat → Nat → Int) (d dst w : Nat) (r : Raster) :
    (takesPlanar (ConvertByteOrder d) = true ↔
      bitField (ConvertByteOrder d) 1 1 = 1 ∧
        ((bitField (ConvertByteOrder d) 11 5 : Int)
            + sext3 (bitField (ConvertByteOrder d) 8 3) < 0 ∨
          31 < (bitField (ConvertByteOrder d) 11 5 : Int)
            + sext3 (bitField (ConvertByteOrder d) 8 3))) ∧
    (takesPlanar (ConvertByteOrder d) = true →
      DecodeRGBPart g_table d dst w r = DecodePlanar (ConvertByteOrder d) dst w r) ∧
    (takesPlanar (ConvertByteOrder d) = false →
      DecodeRGBPart g_table d dst w r
        = decodeSubblocks g_table (ConvertByteOrder d) dst w r) :=
  ⟨takesPlanar_iff _, DecodeRGBPart_planar g_table d dst w r,
    DecodeRGBPart_subblocks g_table d dst w r⟩

/-! ## T and H patterns -/

theorem pack_eq_arith (x y z : Nat) (hx : x < 256) (hy : y < 256) (hz : z < 256) :
    x ||| (y <<< 8) ||| (z <<< 16) ||| 0xFF000000 = x + 256 * y + 65536 * z + 4278190080 := by
  simp only [Nat.shiftLeft_eq]
  norm_num
  simp (disch := omega) only [lor_lo_hi 8, lor_lo_hi 16, lor_lo_hi 24]
  omega

/-- C4, counterexample. The normalised word `0x04000002` (stored as `0x02000004`) has the
diff bit set and the red sum `r0 + dr = 0 - 4` below 0, the T pattern, while its blue sum
is 0.  Whatever the table, the pixel of column 0, row 0 that `DecodeRGBPart` stores is
not the one `DecodePlanar` stores for the same normalised word. -/
theorem th_pattern_not_planar :
    ConvertByteOrder 0x02000004 = 0x04000002 ∧ bitField 0x04000002 1 1 = 1 ∧
    (bitField 0x04000002 27 5 : Int) + sext3 (bitField 0x04000002 24 3) < 0 ∧
    ¬ ∃ g : Nat → Nat → Int,
      (DecodeRGBPart g 0x02000004 0 4 (Raster.fresh fun _ => 0)).px (tileAddr 0 4 0 0)
        = (DecodePlanar 0x04000002 0 4 (Raster.fresh fun _ => 0)).px (tileAddr 0 4 0 0) := by
  refine ⟨by decide, by decide, by decide, ?_⟩
  rintro ⟨g, h⟩
  have hc : ConvertByteOrder 0x02000004 = 0x04000002 := by decide
  have hp : takesPlanar 0x04000002 = false := by decide
  have hR : (DecodePlanar 0x04000002 0 4 (Raster.fresh fun _ => 0)).px (tileAddr 0 4 0 0)
      = 4278190088 := by decide
  have hL := DecodeRGBPart_subblocks g 0x02000004 0 4 (Raster.fresh fun _ => 0)
    (by rw [hc]; exact hp)
  rw [hL, hc, (decodeSubblocks_px g 0x04000002 0 4 _ (by decide) 0 0 (by decide)
    (by decide)).1, hR, modPixel_eq] at h
  have e1 : baseR 0x04000002 (if flipBit 0x04000002 = true then 0 / 2 else 0 / 2) = 0 := by
    decide
  have e2 : baseG 0x04000002 (if flipBit 0x04000002 = true then 0 / 2 else 0 / 2) = 0 := by
    decide
  have e3 : baseB 0x04000002 (if flipBit 0x04000002 = true then 0 / 2 else 0 / 2) = 0 := by
    decide
  rw [e1, e2, e3] at h
  have hle := clampu8_le (toI32 ((0 + toU32 (g (tcw 0x04000002
    (if flipBit 0x04000002 = true then 0 / 2 else 0 / 2))
    (bitField (pixelIndices 0x04000002) (2 * (4 * 0 + 0)) 2))) % 4294967296))
  rw [pack_eq_arith _ _ _ (by omega) (by omega) (by omega)] at h
  omega

/-- C4, amended. A word with the T or the H pattern (diff bit set, red or green sum
outside `[0,31]`) is decoded as a planar block when its blue sum `b0 + db` is outside
`[0,31]` as well; when the blue sum lies in `[0,31]` it goes through the two subblock
loops like any differential block. -/
theorem th_pattern_decode (g_table : Nat → Nat → Int) (d dst w n : Nat) (r : Raster)
    (hn : n = ConvertByteOrder d) (hdiff : bitField n 1 1 = 1)
    (hth : ((bitField n 27 5 : Int) + sext3 (bitField n 24 3) < 0 ∨
        31 < (bitField n 27 5 : Int) + sext3 (bitField n 24 3)) ∨
      ((bitField n 19 5 : Int) + sext3 (bitField n 16 3) < 0 ∨
        31 < (bitField n 19 5 : Int) + sext3 (bitField n 16 3))) :
    (((bitField n 11 5 : Int) + sext3 (bitField n 8 3) < 0 ∨
        31 < (bitField n 11 5 : Int) + sext3 (bitField n 8 3)) →
      DecodeRGBPart g_table d dst w r = DecodePlanar n dst w r) ∧
    ((0 ≤ (bitField n 11 5 : Int) + sext3 (bitField n 8 3) ∧
        (bitField n 11 5 : Int) + sext3 (bitField n 8 3) ≤ 31) →
      DecodeRGBPart g_table d dst w r = decodeSubblocks g_table n dst w r) := by
  subst hn
  constructor
  · intro hb
    exact DecodeRGBPart_planar g_table d dst w r ((takesPlanar_iff _).2 ⟨hdiff, hb⟩)
  · intro hb
    apply DecodeRGBPart_subblocks
    rw [← Bool.not_eq_true, takesPlanar_iff]
    omega

/-- The statement of `th_pattern_decode` at the stored word `0x02000004`, a T pattern
with blue sum 0, and at the stored word `0x02040004`, a T pattern with blue sum -4. -/
theorem th_pattern_decode_witness :
    (0x04000002 = ConvertByteOrder 0x02000004 ∧ bitField 0x04000002 1 1 = 1 ∧
      (bitField 0x04000002 27 5 : Int) + sext3 (bitField 0x04000002 24 3) < 0 ∧
      DecodeRGBPart etc1Table 0x02000004 0 4 (Raster.fresh fun _ => 0)
        = decodeSubblocks etc1Table 0x04000002 0 4 (Raster.fresh fun _ => 0)) ∧
    (0x04000402 = ConvertByteOrder 0x02040004 ∧ bitField 0x04000402 1 1 = 1 ∧
      (bitField 0x04000402 27 5 : Int) + sext3 (bitField 0x04000402 24 3) < 0 ∧
      DecodeRGBPart etc1Table 0x02040004 0 4 (Raster.fresh fun _ => 0)
        = DecodePlanar 0x04000402 0 4 (Raster.fresh fun _ => 0)) :=
  ⟨⟨by decide, by decide, by decide,
    (th_pattern_decode etc1Table 0x02000004 0 4 0x04000002 (Raster.fresh fun _ => 0)
      (by decide) (by decide) (Or.inl (Or.inl (by decide)))).2 (by decide)⟩,
   ⟨by decide, by decide, by decide,
    (th_pattern_decode etc1Table 0x02040004 0 4 0x04000402 (Raster.fresh fun _ => 0)
      (by decide) (by decide) (Or.inl (Or.inl (by decide)))).1 (Or.inl (by decide))⟩⟩

/-! ## Alpha tiles -/

/-- C17. The base colours of a normalised colour word.  With the diff bit (bit 1) clear
every channel is `17 * v` for the four-bit fields R0 = bits 28..31, R1 = 24..27,
G0 = 20..23, G1 = 16..19, B0 = 12..15, B1 = 8..11.  With it set, base 0 is
`(v << 3) | (v >> 2)` of the five-bit fields at bits 27..31, 19..23, 11..15, the deltas
are the two's-complement values, between -4 and 3, of the three-bit fields at bits
24..26, 16..18, 8..10, and base 1 is `(s << 3) | (s >> 2)` of the sum `s = v + delta`
(the eight-bit expansion of `s` when `s` lies in `[0,31]`); when the three sums lie in
`[0,31]` every base channel is at most 255. -/
theorem base_colours (d : Nat) :
    (bitField d 1 1 = 0 →
      baseR d 0 = 17 * bitField d 28 4 ∧ baseR d 1 = 17 * bitField d 24 4 ∧
      baseG d 0 = 17 * bitField d 20 4 ∧ baseG d 1 = 17 * bitField d 16 4 ∧
      baseB d 0 = 17 * bitField d 12 4 ∧ baseB d 1 = 17 * bitField d 8 4) ∧
    (bitField d 1 1 = 1 →
      (baseR d 0 = expandTo8 5 (bitField d 27 5) ∧ baseG d 0 = expandTo8 5 (bitField d 19 5) ∧
        baseB d 0 = expandTo8 5 (bitField d 11 5)) ∧
      (diffDR d = sext3 (bitField d 24 3) ∧ diffDG d = sext3 (bitField d 16 3) ∧
        diffDB d = sext3 (bitField d 8 3)) ∧
      ((-4 ≤ diffDR d ∧ diffDR d ≤ 3) ∧ (-4 ≤ diffDG d ∧ diffDG d ≤ 3) ∧
        (-4 ≤ diffDB d ∧ diffDB d ≤ 3)) ∧
      (baseR d 1 = expand5s ((bitField d 27 5 : Int) + sext3 (bitField d 24 3)) ∧
        baseG d 1 = expand5s ((bitField d 19 5 : Int) + sext3 (bitField d 16 3)) ∧
        baseB d 1 = expand5s ((bitField d 11 5 : Int) + sext3 (bitField d 8 3))) ∧
      (((0 ≤ (bitField d 27 5 : Int) + sext3 (bitField d 24 3) ∧
          (bitField d 27 5 : Int) + sext3 (bitField d 24 3) ≤ 31) ∧
        (0 ≤ (bitField d 19 5 : Int) + sext3 (bitField d 16 3) ∧
          (bitField d 19 5 : Int) + sext3 (bitField d 16 3) ≤ 31) ∧
        (0 ≤ (bitField d 11 5 : Int) + sext3 (bitField d 8 3) ∧
          (bitField d 11 5 : Int) + sext3 (bitField d 8 3) ≤ 31)) →
        (baseR d 1
            = expandTo8 5 ((bitField d 27 5 : Int) + sext3 (bitField d 24 3)).toNat ∧
          baseG d 1
            = expandTo8 5 ((bitField d 19 5 : Int) + sext3 (bitField d 16 3)).toNat ∧
          baseB d 1
            = expandTo8 5 ((bitField d 11 5 : Int) + sext3 (bitField d 8 3)).toNat) ∧
        (baseR d 0 ≤ 255 ∧ baseG d 0 ≤ 255 ∧ baseB d 0 ≤ 255 ∧
          baseR d 1 ≤ 255 ∧ baseG d 1 ≤ 255 ∧ baseB d 1 ≤ 255))) := by
  constructor
  · intro h
    have hd : diffBit d = false := by
      rw [← Bool.not_eq_true, diffBit_iff]; omega
    exact base_individual d hd
  · intro h
    have hd : diffBit d = true := (diffBit_iff d).2 h
    have e0 : baseR d 0 = expandTo8 5 (bitField d 27 5) ∧
        baseG d 0 = expandTo8 5 (bitField d 19 5) ∧
        baseB d 0 = expandTo8 5 (bitField d 11 5) := by
      unfold baseR baseG baseB
      simp only [hd, if_true]
      rw [diffR0_eq, diffG0_eq, diffB0_eq]
      exact ⟨expand5u_eq _ (bitField_lt d 27 5), expand5u_eq _ (bitField_lt d 19 5),
        expand5u_eq _ (bitField_lt d 11 5)⟩
    have e1 : baseR d 1 = expand5s ((bitField d 27 5 : Int) + sext3 (bitField d 24 3)) ∧
        baseG d 1 = expand5s ((bitField d 19 5 : Int) + sext3 (bitField d 16 3)) ∧
        baseB d 1 = expand5s ((bitField d 11 5 : Int) + sext3 (bitField d 8 3)) := by
      unfold baseR baseG baseB
      simp only [hd, if_true, one_ne_zero, if_false]
      rw [diffR1_eq, diffG1_eq, diffB1_eq]
      exact ⟨rfl, rfl, rfl⟩
    have r3 := sext3_range _ (bitField_lt d 24 3)
    have g3 := sext3_range _ (bitField_lt d 16 3)
    have b3 := sext3_range _ (bitField_lt d 8 3)
    refine ⟨e0, ⟨diffDR_eq d, diffDG_eq d, diffDB_eq d⟩, ?_, e1, ?_⟩
    · rw [diffDR_eq, diffDG_eq, diffDB_eq]
      exact ⟨r3, g3, b3⟩
    · rintro ⟨hr, hg, hb⟩
      have l0 := base_le_255 d 0 (by decide)
        (Or.inr ⟨by rw [diffR1_eq]; exact hr, by rw [diffG1_eq]; exact hg,
          by rw [diffB1_eq]; exact hb⟩)
      have l1 := base_le_255 d 1 (by decide)
        (Or.inr ⟨by rw [diffR1_eq]; exact hr, by rw [diffG1_eq]; exact hg,
          by rw [diffB1_eq]; exact hb⟩)
      refine ⟨?_, l0.1, l0.2.1, l0.2.2, l1.1, l1.2.1, l1.2.2⟩
      rw [e1.1, e1.2.1, e1.2.2]
      exact ⟨expand5s_of_range _ hr.1 hr.2, expand5s_of_range _ hg.1 hg.2,
        expand5s_of_range _ hb.1 hb.2⟩

/-! ## The interleaved index field -/

theorem testBit_false_of_lt (b m : Nat) (hb : b < 65536) (hm : 16 ≤ m) : b.testBit m = false :=
  Nat.testBit_lt_two_pow (Nat.lt_of_lt_of_le hb (by
    calc 65536 = 2 ^ 16 := by norm_num
      _ ≤ 2 ^ m := Nat.pow_le_pow_right (by decide) hm))

theorem mask_8 (j : Nat) (hj : j < 32) : Nat.testBit 0x00FF00FF j = decide (j % 16 < 8) := by
  interval_cases j <;> decide

theorem mask_4 (j : Nat) (hj : j < 32) : Nat.testBit 0x0F0F0F0F j = decide (j % 8 < 4) := by
  interval_cases j <;> decide

theorem mask_2 (j : Nat) (hj : j < 32) : Nat.testBit 0x33333333 j = decide (j % 4 < 2) := by
  interval_cases j <;> decide

theorem mask_1 (j : Nat) (hj : j < 32) : Nat.testBit 0x55555555 j = decide (j % 2 < 1) := by
  interval_cases j <;> decide

/-- The four spreading steps move bit `k` of a 16-bit value to bit `2k` and leave the
odd bits clear. -/
theorem spread16_testBit (b : Nat) (hb : b < 65536) (j : Nat) (hj : j < 32) :
    (spread16 b).testBit j = (decide (j % 2 = 0) && b.testBit (j / 2)) := by
  unfold spread16 shl32
  have e : (4294967296 : Nat) = 2 ^ 32 := by norm_num
  simp only [e, Nat.testBit_and, Nat.testBit_or, Nat.testBit_mod_two_pow, Nat.testBit_shiftLeft]
  interval_cases j <;> simp [testBit_false_of_lt b _ hb, mask_8, mask_4, mask_2, mask_1]

theorem testBit_bitField (d lo len k : Nat) :
    (bitField d lo len).testBit k = (decide (k < len) && d.testBit (lo + k)) := by
  unfold bitField
  rw [Nat.testBit_mod_two_pow, ← Nat.shiftRight_eq_div_pow, Nat.testBit_shiftRight]

theorem pixelIndices_eq (d : Nat) (hd : d < 18446744073709551616) :
    pixelIndices d
      = spread16 (bitField d 32 16) ||| shl32 (spread16 (bitField d 48 16)) 1 := by
  have h1 := bitField_lt d 32 16
  have e1 : ((d >>> 32) &&& 0xFFFF) % 4294967296 = bitField d 32 16 := by
    rw [shr_and_low d 32 0xFFFF 16 (by decide)]; omega
  have e2 : (d >>> 48) % 4294967296 = bitField d 48 16 := by
    unfold bitField; rw [Nat.shiftRight_eq_div_pow]; omega
  unfold pixelIndices
  simp only [e1, e2]

theorem pixelIndices_even (d : Nat) (hd : d < 18446744073709551616) (k : Nat) (hk : k < 16) :
    (pixelIndices d).testBit (2 * k) = d.testBit (32 + k) := by
  have e : (4294967296 : Nat) = 2 ^ 32 := by norm_num
  have b1 : bitField d 32 16 < 65536 := bitField_lt d 32 16
  have b2 : bitField d 48 16 < 65536 := bitField_lt d 48 16
  rw [pixelIndices_eq d hd, Nat.testBit_or, spread16_testBit _ b1 _ (by omega)]
  unfold shl32
  rw [e, Nat.testBit_mod_two_pow, Nat.testBit_shiftLeft, testBit_bitField]
  have h1 : 2 * k % 2 = 0 := by omega
  have h2 : 2 * k / 2 = k := by omega
  by_cases hk0 : k = 0
  · subst hk0
    simp
  · rw [spread16_testBit _ b2 _ (by omega)]
    have h3 : ¬ (2 * k - 1) % 2 = 0 := by omega
    simp [h1, h2, h3, hk]

theorem pixelIndices_odd (d : Nat) (hd : d < 18446744073709551616) (k : Nat) (hk : k < 16) :
    (pixelIndices d).testBit (2 * k + 1) = d.testBit (48 + k) := by
  have e : (4294967296 : Nat) = 2 ^ 32 := by norm_num
  have b1 : bitField d 32 16 < 65536 := bitField_lt d 32 16
  have b2 : bitField d 48 16 < 65536 := bitField_lt d 48 16
  rw [pixelIndices_eq d hd, Nat.testBit_or, spread16_testBit _ b1 _ (by omega)]
  unfold shl32
  rw [e, Nat.testBit_mod_two_pow, Nat.testBit_shiftLeft, spread16_testBit _ b2 _ (by omega)]
  simp only [testBit_bitField]
  have h1 : ¬ (2 * k + 1) % 2 = 0 := by omega
  have h2 : (2 * k + 1 - 1) % 2 = 0 := by omega
  have h3 : (2 * k + 1 - 1) / 2 = k := by omega
  have h4 : 2 * k + 1 < 32 := by omega
  simp [h1, h2, h3, h4, hk]

theorem bitField_one (x p : Nat) : bitField x p 1 = (x.testBit p).toNat := by
  unfold bitField
  rw [Nat.testBit_to_div_mod]
  have h := Nat.mod_two_eq_zero_or_one (x / 2 ^ p)
  rcases h with h | h <;> simp [h]

theorem bitField_two (x p : Nat) :
    bitField x p 2 = bitField x p 1 + 2 * bitField x (p + 1) 1 := by
  unfold bitField
  have e : x / 2 ^ (p + 1) = x / 2 ^ p / 2 := by
    rw [Nat.pow_succ, Nat.div_div_eq_div_mul]
  rw [e]
  omega

/-- C18. For a 64-bit normalised colour word `d` and `k` below 16, bit `2k` of the index
field `idx` is bit `32 + k` of `d` and bit `2k + 1` of `idx` is bit `48 + k` of `d`, so
the `k`-th two-bit index is `bit(32 + k) + 2 * bit(48 + k)`. -/
theorem index_interleave (d k : Nat) (hd : d < 18446744073709551616) (hk : k < 16) :
    (pixelIndices d).testBit (2 * k) = d.testBit (32 + k) ∧
    (pixelIndices d).testBit (2 * k + 1) = d.testBit (48 + k) ∧
    bitField (pixelIndices d) (2 * k) 2 = bitField d (32 + k) 1 + 2 * bitField d (48 + k) 1 := by
  refine ⟨pixelIndices_even d hd k hk, pixelIndices_odd d hd k hk, ?_⟩
  rw [bitField_two, bitField_one, bitField_one, bitField_one, bitField_one,
    pixelIndices_even d hd k hk, pixelIndices_odd d hd k hk]

/-- The statement of `index_interleave` for the word `0x0020000100000000` (bits 32 and
53 set) and `k = 5`: the index of position 5 is 2. -/
theorem index_interleave_witness :
    (0x0020000100000000 : Nat) < 18446744073709551616 ∧ 5 < 16 ∧
    (pixelIndices 0x0020000100000000).testBit (2 * 5) = Nat.testBit 0x0020000100000000 (32 + 5) ∧
    (pixelIndices 0x0020000100000000).testBit (2 * 5 + 1)
      = Nat.testBit 0x0020000100000000 (48 + 5) ∧
    bitField (pixelIndices 0x0020000100000000) (2 * 5) 2 = 2 :=
  ⟨by decide, by decide,
    (index_interleave 0x0020000100000000 5 (by decide) (by decide)).1,
    (index_interleave 0x0020000100000000 5 (by decide) (by decide)).2.1,
    (index_interleave 0x0020000100000000 5 (by decide) (by decide)).2.2.trans (by decide)⟩

/-! ## Order of the pixel indices -/

/-- C16, as stated, fails: the alpha channel requested for a `Dxt1` image is not
rejected.  The alpha branch of `Process` tests only `m_type != Etc1`, so it calls
`CompressEtc2Alpha`. -/
theorem process_dxt1_alpha_accepted :
    Process BlockType.Dxt1 Channels.Alpha false = some Kernel.CompressEtc2Alpha ∧
    Process BlockType.Dxt1 Channels.Alpha true = some Kernel.CompressEtc2Alpha := by
  decide

/-- C16, amended: `Process` calls `CompressEtc1Rgb` for {Etc1, colour, no dither},
`CompressEtc1RgbDither` for {Etc1, colour, dither}, `CompressEtc1Alpha` for {Etc1, alpha},
`CompressEtc2Alpha` for the alpha channel of every other type (`Etc2_RGB`, `Etc2_RGBA` and
`Dxt1`), `CompressEtc2Rgb` for {Etc2_RGB, colour} and `CompressDxt1` for {Dxt1, colour};
the only combination it rejects is the colour channel of an `Etc2_RGBA` image. -/
theorem process_dispatch (dither : Bool) :
    Process BlockType.Etc1 Channels.RGB false = some Kernel.CompressEtc1Rgb ∧
    Process BlockType.Etc1 Channels.RGB true = some Kernel.CompressEtc1RgbDither ∧
    Process BlockType.Etc1 Channels.Alpha dither = some Kernel.CompressEtc1Alpha ∧
    Process BlockType.Etc2_RGB Channels.Alpha dither = some Kernel.CompressEtc2Alpha ∧
    Process BlockType.Etc2_RGBA Channels.Alpha dither = some Kernel.CompressEtc2Alpha ∧
    Process BlockType.Dxt1 Channels.Alpha dither = some Kernel.CompressEtc2Alpha ∧
    Process BlockType.Etc2_RGB Channels.RGB dither = some Kernel.CompressEtc2Rgb ∧
    Process BlockType.Dxt1 Channels.RGB dither = some Kernel.CompressDxt1 ∧
    ∀ (m_type : BlockType) (type : Channels),
      Process m_type type dither = none ↔
        (m_type = BlockType.Etc2_RGBA ∧ type = Channels.RGB) := by
  refine ⟨by decide, by decide, ?_, ?_, ?_, ?_, ?_, ?_, ?_⟩
  · cases dither <;> decide
  · cases dither <;> decide
  · cases dither <;> decide
  · cases dither <;> decide
  · cases dither <;> decide
  · cases dither <;> decide
  · intro m_type type
    cases dither <;> cases m_type <;> cases type <;> decide

/-! ## Opening a container (C11, C15) -/

theorem pvrType_isSome (fmt : Nat) :
    (pvrType fmt).isSome = true ↔ (fmt = 6 ∨ fmt = 22 ∨ fmt = 23) := by
  unfold pvrType
  split_ifs <;> simp_all

theorem ktxType_isSome (fmt : Nat) :
    (ktxType fmt).isSome = true ↔ (fmt = 0x9274 ∨ fmt = 0x9278) := by
  unfold ktxType
  split_ifs <;> simp_all

theorem pvrType_eq (fmt : Nat) (t : BlockType) (h : pvrType fmt = some t) :
    (fmt = 6 ∧ t = BlockType.Etc1) ∨ (fmt = 22 ∧ t = BlockType.Etc2_RGB) ∨
      (fmt = 23 ∧ t = BlockType.Etc2_RGBA) := by
  unfold pvrType at h
  split_ifs at h <;> simp_all

theorem ktxType_eq (fmt : Nat) (t : BlockType) (h : ktxType fmt = some t) :
    (fmt = 0x9274 ∧ t = BlockType.Etc2_RGB) ∨ (fmt = 0x9278 ∧ t = BlockType.Etc2_RGBA) := by
  unfold ktxType at h
  split_ifs at h <;> simp_all

/-- The signed reading of a 32-bit word: the word itself below `2^31`, the word less
`2^32` from there on. -/
theorem toI32_word (n : Nat) (h : n < 4294967296) :
    (n < 2147483648 → toI32 n = (n : Int)) ∧
    (2147483648 ≤ n → toI32 n = (n : Int) - 4294967296) := by
  unfold toI32
  have e : n % 4294967296 = n := Nat.mod_eq_of_lt h
  rw [e]
  constructor
  · intro h1
    rw [if_pos h1]
  · intro h1
    rw [if_neg (by omega)]

theorem add64_small (a b : Nat) (h : a + b < 18446744073709551616) : add64 a b = a + b :=
  Nat.mod_eq_of_lt h

/-- Every entry of a list of words is below a bound that all its elements are below. -/
theorem getD_lt (l : List Nat) (B : Nat) (hB : 0 < B) (h : ∀ x ∈ l, x < B) (k : Nat) :
    l.getD k 0 < B := by
  rcases Nat.lt_or_ge k l.length with hk | hk
  · rw [List.getD_eq_getElem l 0 hk]
    exact h _ (List.getElem_mem _)
  · rw [List.getD_eq_default l 0 hk]
    exact hB

/-- C11, as stated, fails: the size words are stored into `int` members and
`52 + word 12` is a `uint32_t` sum.  For the PVR header with word 6 = `0x80000000` and
word 12 = `0xFFFFFFF0` the image opens with height `-2147483648`, not word 6, and data
offset 36, not `52 + word 12 = 4294967332`. -/
theorem open_words_wrap :
    (BlockData.ofFile
      (fun k => [0x03525650, 0, 6, 0, 0, 0, 0x80000000, 8, 1, 1, 1, 1, 0xFFFFFFF0].getD k 0)
      84).map (fun bd => (bd.m_size.y, bd.m_dataOffset)) = some (-2147483648, 36) ∧
    (-2147483648 : Int) ≠ ((0x80000000 : Nat) : Int) ∧
    (36 : Nat) ≠ 52 + 0xFFFFFFF0 := by
  decide

/-- C11, amended: opening a container whose 32-bit words are `data32` succeeds exactly
when word 0 is `0x03525650` and word 2 is 6, 22 or 23, or word 0 is `0x58544BAB` and
word 7 is `0x9274` or `0x9278`.  On success a PVR header gives the type 6 -> Etc1,
22 -> Etc2_RGB, 23 -> Etc2_RGBA, height word 6 and width word 7 read as signed 32-bit
values (the word below `2^31`, the word less `2^32` from there on) and data offset
`(52 + word 12) mod 2^32`, which is `52 + word 12` up to word 12 = `0xFFFFFFCB`; a KTX
header gives the type 0x9274 -> Etc2_RGB, 0x9278 -> Etc2_RGBA, width word 9 and height
word 10 read the same way, and data offset 68 + word 15. -/
theorem open_container (data32 : Nat → Nat) (len : Nat)
    (hw : ∀ k, data32 k < 4294967296) :
    ((BlockData.ofFile data32 len).isSome = true ↔
      ((data32 0 = 0x03525650 ∧ (data32 2 = 6 ∨ data32 2 = 22 ∨ data32 2 = 23)) ∨
       (data32 0 = 0x58544BAB ∧ (data32 7 = 0x9274 ∨ data32 7 = 0x9278)))) ∧
    (∀ bd, BlockData.ofFile data32 len = some bd → data32 0 = 0x03525650 →
      ((data32 2 = 6 ∧ bd.m_type = BlockType.Etc1) ∨
       (data32 2 = 22 ∧ bd.m_type = BlockType.Etc2_RGB) ∨
       (data32 2 = 23 ∧ bd.m_type = BlockType.Etc2_RGBA)) ∧
      (data32 6 < 2147483648 → bd.m_size.y = (data32 6 : Int)) ∧
      (2147483648 ≤ data32 6 → bd.m_size.y = (data32 6 : Int) - 4294967296) ∧
      (data32 7 < 2147483648 → bd.m_size.x = (data32 7 : Int)) ∧
      (2147483648 ≤ data32 7 → bd.m_size.x = (data32 7 : Int) - 4294967296) ∧
      bd.m_dataOffset = (52 + data32 12) % 4294967296 ∧
      (data32 12 ≤ 0xFFFFFFCB → bd.m_dataOffset = 52 + data32 12)) ∧
    (∀ bd, BlockData.ofFile data32 len = some bd → data32 0 = 0x58544BAB →
      ((data32 7 = 0x9274 ∧ bd.m_type = BlockType.Etc2_RGB) ∨
       (data32 7 = 0x9278 ∧ bd.m_type = BlockType.Etc2_RGBA)) ∧
      (data32 9 < 2147483648 → bd.m_size.x = (data32 9 : Int)) ∧
      (2147483648 ≤ data32 9 → bd.m_size.x = (data32 9 : Int) - 4294967296) ∧
      (data32 10 < 2147483648 → bd.m_size.y = (data32 10 : Int)) ∧
      (2147483648 ≤ data32 10 → bd.m_size.y = (data32 10 : Int) - 4294967296) ∧
      bd.m_dataOffset = 68 + data32 15) := by
  refine ⟨?_, ?_, ?_⟩
  · unfold BlockData.ofFile
    split_ifs with h0 h1
    · rw [Option.isSome_map', pvrType_isSome]
      constructor
      · intro h
        exact Or.inl ⟨h0, h⟩
      · rintro (⟨-, h⟩ | ⟨h, -⟩)
        · exact h
        · rw [h0] at h
          exact absurd h (by decide)
    · rw [Option.isSome_map', ktxType_isSome]
      constructor
      · intro h
        exact Or.inr ⟨h1, h⟩
      · rintro (⟨h, -⟩ | ⟨-, h⟩)
        · exact absurd h h0
        · exact h
    · constructor
      · intro h
        exact absurd h (by simp)
      · rintro (⟨h, -⟩ | ⟨h, -⟩)
        · exact absurd h h0
        · exact absurd h h1
  · intro bd h h0
    unfold BlockData.ofFile at h
    rw [if_pos h0] at h
    obtain ⟨t, ht, rfl⟩ := Option.map_eq_some'.1 h
    refine ⟨pvrType_eq _ _ ht, (toI32_word _ (hw 6)).1, (toI32_word _ (hw 6)).2,
      (toI32_word _ (hw 7)).1, (toI32_word _ (hw 7)).2, rfl, ?_⟩
    intro h12
    exact Nat.mod_eq_of_lt (by omega)
  · intro bd h h1
    have h0 : ¬ data32 0 = 0x03525650 := by
      rw [h1]
      decide
    unfold BlockData.ofFile at h
    rw [if_neg h0, if_pos h1] at h
    obtain ⟨t, ht, rfl⟩ := Option.map_eq_some'.1 h
    refine ⟨ktxType_eq _ _ ht, (toI32_word _ (hw 9)).1, (toI32_word _ (hw 9)).2,
      (toI32_word _ (hw 10)).1, (toI32_word _ (hw 10)).2, ?_⟩
    have h15 := hw 15
    exact add64_small _ _ (by omega)

/-- The statement of `open_container` for the PVR header of a 8x4 `Etc2_RGB` image with
16 bytes of metadata and for the KTX header of a 4x8 `Etc2_RGBA` image with no key-value
data. -/
theorem open_container_witness :
    (BlockData.ofFile (fun k => [0x03525650, 0, 22, 0, 0, 0, 4, 8, 1, 1, 1, 1, 16].getD k 0)
      84).isSome = true ∧
    (∀ bd, BlockData.ofFile
        (fun k => [0x03525650, 0, 22, 0, 0, 0, 4, 8, 1, 1, 1, 1, 16].getD k 0) 84 = some bd →
      bd.m_type = BlockType.Etc2_RGB ∧ bd.m_size.y = 4 ∧ bd.m_size.x = 8 ∧
        bd.m_dataOffset = 68) ∧
    (∀ bd, BlockData.ofFile
        (fun k => [0x58544BAB, 0, 0, 0, 0, 0, 0, 0x9278, 0, 4, 8, 0, 0, 0, 0, 0, 0].getD k 0)
        100 = some bd →
      bd.m_type = BlockType.Etc2_RGBA ∧ bd.m_size.x = 4 ∧ bd.m_size.y = 8 ∧
        bd.m_dataOffset = 68) :=
  ⟨(open_container _ 84 (getD_lt _ _ (by decide) (by decide))).1.2
      (Or.inl ⟨rfl, Or.inr (Or.inl rfl)⟩),
   fun bd h => by
    obtain ⟨ht, hy, -, hx, -, -, ho⟩ :=
      (open_container _ 84 (getD_lt _ _ (by decide) (by decide))).2.1 bd h rfl
    refine ⟨?_, hy (by decide), hx (by decide), ho (by decide)⟩
    rcases ht with ⟨h6, -⟩ | ⟨-, ht⟩ | ⟨h23, -⟩
    · exact absurd h6 (by decide)
    · exact ht
    · exact absurd h23 (by decide),
   fun bd h => by
    obtain ⟨ht, hx, -, hy, -, ho⟩ :=
      (open_container _ 100 (getD_lt _ _ (by decide) (by decide))).2.2 bd h rfl
    refine ⟨?_, hx (by decide), hy (by decide), ho⟩
    rcases ht with ⟨h4, -⟩ | ⟨-, ht⟩
    · exact absurd h4 (by decide)
    · exact ht⟩

/-- The file-backed creating constructor rejects a size that is not a multiple of 4 in
both coordinates, and keeps the size it is given. -/
theorem create_size (size : v2i) (mipmap : Bool) (type : BlockType) (bd : BlockData)
    (h : BlockData.create size mipmap type = some bd) :
    size.x % 4 = 0 ∧ size.y % 4 = 0 ∧ bd.m_size.x = size.x ∧ bd.m_size.y = size.y := by
  by_cases h4 : size.x % 4 = 0 ∧ size.y % 4 = 0
  · rw [BlockData.create, if_pos h4] at h
    obtain ⟨p, -, rfl⟩ := Option.map_eq_some'.1 h
    exact ⟨h4.1, h4.2, rfl, rfl⟩
  · rw [BlockData.create, if_neg h4] at h
    exact absurd h (by simp)

/-- The heap-backed creating constructor rejects a size that is not a multiple of 4 in
both coordinates, and keeps the size it is given. -/
theorem createHeap_size (init : Nat → Nat) (size : v2i) (mipmap : Bool) (type : BlockType)
    (bd : BlockData) (h : BlockData.createHeap init size mipmap type = some bd) :
    size.x % 4 = 0 ∧ size.y % 4 = 0 ∧ bd.m_size.x = size.x ∧ bd.m_size.y = size.y := by
  by_cases h4 : size.x % 4 = 0 ∧ size.y % 4 = 0
  · rw [BlockData.createHeap, if_pos h4] at h
    obtain ⟨p, -, rfl⟩ := Option.map_eq_some'.1 h
    exact ⟨h4.1, h4.2, rfl, rfl⟩
  · rw [BlockData.createHeap, if_neg h4] at h
    exact absurd h (by simp)

/-- C15: the opening constructor has no check of the size.  The PVR header of a 6x5
`Etc1` image (word 6 = 5, word 7 = 6) opens, and the image has width 6 and height 5; both
creating constructors reject the same size by their
`assert( m_size.x%4 == 0 && m_size.y%4 == 0 )`. -/
theorem open_accepts_unaligned_size :
    (BlockData.ofFile (fun k => [0x03525650, 0, 6, 0, 0, 0, 5, 6, 1, 1, 1, 1, 0].getD k 0)
      84).map (fun bd => (bd.m_size.x, bd.m_size.y, bd.m_size.x % 4, bd.m_size.y % 4)) =
      some (6, 5, 2, 1) ∧
    (BlockData.create ⟨6, 5⟩ false BlockType.Etc1).isSome = false ∧
    (BlockData.createHeap (fun _ => 0) ⟨6, 5⟩ false BlockType.Etc1).isSome = false := by
  decide

/-! ## The mip chain of a 16x16 image (C14) -/

/-- The floor of the binary logarithm, from its two bounds. -/
theorem log2_eq_of_bounds (n k : Nat) (h1 : 2 ^ k ≤ n) (h2 : n < 2 ^ (k + 1)) :
    Nat.log2 n = k := by
  have hn : n ≠ 0 := by
    have : 0 < 2 ^ k := Nat.two_pow_pos k
    omega
  have a : Nat.log2 n < k + 1 := (Nat.log2_lt hn).2 h2
  have b : ¬ Nat.log2 n < k := fun h => by
    have := (Nat.log2_lt hn).1 h
    omega
  omega

/-- C14, as stated, fails: for a 16x16 image and 3 levels the loop of
`AdjustSizeForMipmaps` does accumulate `8*8/2 + 4*4/2 = 40` bytes, but it stops at
4x4, so the closing `assert( current.x == 1 && current.y == 1 )` fails and the call does
not return. -/
theorem mip_16x16_three_levels_fails :
    (mipLoop ⟨16, 16⟩ 3).map (fun s => (s.1, s.2.x, s.2.y)) = some (40, 4, 4) ∧
    AdjustSizeForMipmaps ⟨16, 16⟩ 3 = none := by
  decide

/-- C14, amended: for a 16x16 image and 3 levels (16x16, 8x8, 4x4) the loop of
`AdjustSizeForMipmaps` accumulates the sum of `max(4,dim)^2/2` over levels 2 and 3 only,
`8*8/2 + 4*4/2 = 40` bytes, and stops at 4x4.  The image has `NumberOfMipLevels = 5`
levels (16x16, 8x8, 4x4, 2x2, 1x1); with 5 levels the call returns
`8*8/2 + 4*4/2 + 4*4/2 + 4*4/2 = 56` bytes (the base level is not part of it), and 5 is
the only level count for which it returns at all. -/
theorem mip_16x16_five_levels :
    (mipLoop ⟨16, 16⟩ 3).map (fun s => (s.1, s.2.x, s.2.y)) =
      some (8 * 8 / 2 + 4 * 4 / 2, 4, 4) ∧
    NumberOfMipLevels ⟨16, 16⟩ = 5 ∧
    AdjustSizeForMipmaps ⟨16, 16⟩ 5 = some (8 * 8 / 2 + 4 * 4 / 2 + 4 * 4 / 2 + 4 * 4 / 2) ∧
    AdjustSizeForMipmaps ⟨16, 16⟩ 5 = some 56 ∧
    ∀ levels, (AdjustSizeForMipmaps ⟨16, 16⟩ levels).isSome = true ↔ levels = 5 := by
  refine ⟨by decide, ?_, by decide, by decide, ?_⟩
  · unfold NumberOfMipLevels
    rw [log2_eq_of_bounds (max 16 16) 4 (by decide) (by decide)]
  intro levels
  constructor
  · intro h
    by_contra hne
    have h6 : ∀ n, mipLoop ⟨16, 16⟩ (6 + n) = none := by
      intro n
      induction n with
      | zero => rfl
      | succ n ih =>
        have e : 6 + (n + 1) - 1 = (6 + n - 1) + 1 := by omega
        unfold mipLoop at ih ⊢
        rw [e, forLoop_succ, ih]
        rfl
    rcases Nat.lt_or_ge levels 6 with hl | hl
    · interval_cases levels <;> first | exact hne rfl | exact absurd h (by decide)
    · obtain ⟨n, rfl⟩ : ∃ n, levels = 6 + n := ⟨levels - 6, by omega⟩
      simp [AdjustSizeForMipmaps, h6 n] at h
  · rintro rfl
    decide

/-! ## The mip chain (C13) -/

theorem halve_specLevel (size : v2i) (k : Nat) :
    halve (specLevel size k) = specLevel size (k + 1) := by
  have e : ∀ a : Nat, max 1 (max 1 (a / 2 ^ k) / 2) = max 1 (a / 2 ^ (k + 1)) := by
    intro a
    rw [pow_succ, ← Nat.div_div_eq_div_mul]
    omega
  simp only [halve, specLevel, e]

theorem specLevel_zero (size : v2i) (hx : 0 < size.x) (hy : 0 < size.y) :
    specLevel size 0 = size := by
  cases size with
  | mk x y =>
    simp only [specLevel, pow_zero, Nat.div_one]
    congr <;> simp only [] at hx hy <;> omega

/-- Before level `log2 (max w h)` a level is not 1x1. -/
theorem specLevel_not_unit (size : v2i) (hx : 0 < size.x) (k : Nat)
    (hk : k < Nat.log2 (max size.x size.y)) :
    (specLevel size k).x ≠ 1 ∨ (specLevel size k).y ≠ 1 := by
  have hM : max size.x size.y ≠ 0 := by omega
  have h1 : 2 ^ Nat.log2 (max size.x size.y) ≤ max size.x size.y := Nat.log2_self_le hM
  have h2 : 2 ^ (k + 1) ≤ 2 ^ Nat.log2 (max size.x size.y) :=
    Nat.pow_le_pow_right (by decide) hk
  have h3 : 2 ^ (k + 1) = 2 * 2 ^ k := by rw [pow_succ, Nat.mul_comm]
  have hp : 0 < 2 ^ k := Nat.two_pow_pos k
  simp only [specLevel]
  rcases Nat.le_total size.x size.y with hle | hle
  · right
    have : 2 ≤ size.y / 2 ^ k := (Nat.le_div_iff_mul_le hp).2 (by omega)
    omega
  · left
    have : 2 ≤ size.x / 2 ^ k := (Nat.le_div_iff_mul_le hp).2 (by omega)
    omega

/-- Level `log2 (max w h)` is 1x1. -/
theorem specLevel_unit (size : v2i) :
    (specLevel size (Nat.log2 (max size.x size.y))).x = 1 ∧
    (specLevel size (Nat.log2 (max size.x size.y))).y = 1 := by
  have h1 : max size.x size.y < 2 ^ (Nat.log2 (max size.x size.y) + 1) := Nat.lt_log2_self
  have h3 : 2 ^ (Nat.log2 (max size.x size.y) + 1) = 2 ^ Nat.log2 (max size.x size.y) * 2 :=
    pow_succ _ _
  have hp : 0 < 2 ^ Nat.log2 (max size.x size.y) := Nat.two_pow_pos _
  have a : size.x / 2 ^ Nat.log2 (max size.x size.y) < 2 :=
    (Nat.div_lt_iff_lt_mul hp).2 (by omega)
  have b : size.y / 2 ^ Nat.log2 (max size.x size.y) < 2 :=
    (Nat.div_lt_iff_lt_mul hp).2 (by omega)
  simp only [specLevel]
  omega

/-- A size whose area is below `2^31` has fewer than 31 halvings. -/
theorem log2_side_lt (size : v2i) (hx : 0 < size.x) (hy : 0 < size.y)
    (hb : size.x * size.y < 2147483648) : Nat.log2 (max size.x size.y) < 31 := by
  have h1 : size.x ≤ size.x * size.y := Nat.le_mul_of_pos_right _ hy
  have h2 : size.y ≤ size.x * size.y := Nat.le_mul_of_pos_left _ hx
  have hM : max size.x size.y ≠ 0 := by omega
  exact (Nat.log2_lt hM).2 (by
    have : (2 : Nat) ^ 31 = 2147483648 := by decide
    omega)

/-! ### No overflow below an area of `2^31` -/

/-- The product of the clamped sides of a level, `max(4,x) * max(4,y)`. -/
theorem level_product_le (size : v2i) (k : Nat) (hx : 4 ≤ size.x) (hy : 4 ≤ size.y) :
    max 4 (specLevel size k).x * max 4 (specLevel size k).y ≤ size.x * size.y := by
  have a := Nat.div_le_self size.x (2 ^ k)
  have b := Nat.div_le_self size.y (2 ^ k)
  simp only [specLevel]
  exact Nat.mul_le_mul (by omega) (by omega)

theorem product_step (a a2 b b2 : Nat) (ha : 4 ≤ a2) (ha1 : a2 ≤ a)
    (ha2 : 8 ≤ a → 2 * a2 ≤ a) (ha3 : a < 8 → a2 = 4) (hb : 4 ≤ b2) (hb1 : b2 ≤ b)
    (hb2 : 8 ≤ b → 2 * b2 ≤ b) (hb3 : b < 8 → b2 = 4) :
    2 * (a2 * b2) ≤ a * b + 16 := by
  rcases Nat.lt_or_ge a 8 with h | h
  · rcases Nat.lt_or_ge b 8 with h2 | h2
    · have e := Nat.mul_le_mul (Nat.le_trans ha ha1) (Nat.le_trans hb hb1)
      rw [ha3 h, hb3 h2]
      omega
    · have e := Nat.mul_le_mul ha1 (hb2 h2)
      have e2 : a2 * (2 * b2) = 2 * (a2 * b2) := by ring
      omega
  · have e := Nat.mul_le_mul (ha2 h) hb1
    have e2 : 2 * a2 * b2 = 2 * (a2 * b2) := by ring
    omega

/-- From a level to the next the product of the clamped sides halves, but for the
levels that are clamped in both coordinates. -/
theorem level_product_step (size : v2i) (k : Nat) :
    2 * (max 4 (specLevel size (k + 1)).x * max 4 (specLevel size (k + 1)).y) ≤
      max 4 (specLevel size k).x * max 4 (specLevel size k).y + 16 := by
  have ex : size.x / 2 ^ (k + 1) = size.x / 2 ^ k / 2 := by
    rw [pow_succ, Nat.div_div_eq_div_mul]
  have ey : size.y / 2 ^ (k + 1) = size.y / 2 ^ k / 2 := by
    rw [pow_succ, Nat.div_div_eq_div_mul]
  simp only [specLevel, ex, ey]
  apply product_step <;> omega

theorem specMipSum_one (size : v2i) : specMipSum size 1 = 0 := rfl

theorem specMipSum_succ (size : v2i) (n : Nat) :
    specMipSum size (n + 2) = specMipSum size (n + 1) +
      max 4 (specLevel size (n + 1)).x * max 4 (specLevel size (n + 1)).y / 2 := by
  have e : n + 2 - 1 = n + 1 := rfl
  have e1 : n + 1 - 1 = n := rfl
  simp only [specMipSum, specLevel, e, e1, List.range_succ, List.map_append,
    List.sum_append, List.map_cons, List.map_nil, List.sum_cons, List.sum_nil, Nat.add_zero]

/-- Twice the bytes of the levels 1 to `n`, with the product of the clamped sides of
level `n`, stay below the area and 16 for every level. -/
theorem specMipSum_bound (size : v2i) (hx : 4 ≤ size.x) (hy : 4 ≤ size.y) (n : Nat) :
    2 * specMipSum size (n + 1) +
        max 4 (specLevel size n).x * max 4 (specLevel size n).y ≤
      size.x * size.y + 16 * n := by
  induction n with
  | zero =>
    rw [specMipSum_one, specLevel_zero size (by omega) (by omega)]
    have e1 : max 4 size.x = size.x := by omega
    have e2 : max 4 size.y = size.y := by omega
    rw [e1, e2]
    omega
  | succ n ih =>
    have s := level_product_step size n
    have d := Nat.div_mul_le_self
      (max 4 (specLevel size (n + 1)).x * max 4 (specLevel size (n + 1)).y) 2
    rw [specMipSum_succ]
    omega

/-- Below an area of `2^31` and up to 31 levels, the bytes of the levels stay below
`2^31` with the bytes of one more level. -/
theorem specMipSum_lt (size : v2i) (hx : 4 ≤ size.x) (hy : 4 ≤ size.y)
    (hb : size.x * size.y < 2147483648) (n : Nat) (hn : n ≤ 31) :
    specMipSum size (n + 1) < 1073742080 := by
  have h := specMipSum_bound size hx hy n
  omega

theorem toI32_toU32 (v : Int) (h0 : 0 ≤ v) (h1 : v < 2147483648) : toI32 (toU32 v) = v := by
  unfold toI32 toU32
  have e : (v % 4294967296).toNat % 4294967296 = v.toNat := by omega
  rw [e, if_pos (by omega)]
  omega

/-- Below an area of `2^31` the `int` product and the division of a level's bytes are
exact. -/
theorem mipLevelBytes_level (size : v2i) (k : Nat) (hx : 4 ≤ size.x) (hy : 4 ≤ size.y)
    (hb : size.x * size.y < 2147483648) :
    mipLevelBytes (specLevel size k) =
      ((max 4 (specLevel size k).x * max 4 (specLevel size k).y / 2 : Nat) : Int) := by
  have h := level_product_le size k hx hy
  unfold mipLevelBytes mulInt
  rw [toI32_small _ (by omega)]
  exact (Int.ofNat_tdiv _ 2).symm

/-- The state of the loop of `AdjustSizeForMipmaps` after `n` turns, none of which starts
at 1x1, below an area of `2^31`: the bytes of the levels 1 to `n`, and level `n`. -/
theorem mipLoop_inv (size : v2i) (hx : 4 ≤ size.x) (hy : 4 ≤ size.y)
    (hb : size.x * size.y < 2147483648) (n : Nat) (hn : n ≤ 31)
    (h : ∀ k, k < n → (specLevel size k).x ≠ 1 ∨ (specLevel size k).y ≠ 1) :
    mipLoop size (n + 1) = some (((specMipSum size (n + 1) : Nat) : Int), specLevel size n) := by
  unfold mipLoop
  rw [Nat.add_sub_cancel]
  induction n with
  | zero =>
    rw [forLoop_zero, specLevel_zero size (by omega) (by omega), specMipSum_one]
    rfl
  | succ n ih =>
    rw [forLoop_succ, ih (by omega) (fun k hk => h k (by omega))]
    have hnu := h n (by omega)
    have b1 := specMipSum_lt size hx hy hb (n + 1) hn
    rw [specMipSum_succ] at b1
    simp only [mipStep, Option.some_bind, if_pos hnu, halve_specLevel,
      mipLevelBytes_level size (n + 1) hx hy hb]
    rw [specMipSum_succ, addInt, toI32_toU32 _ (by omega) (by omega)]
    push_cast
    rfl

/-- With the level count of `NumberOfMipLevels` and an area below `2^31`,
`AdjustSizeForMipmaps` returns, and returns the specification's sum. -/
theorem AdjustSizeForMipmaps_levels (size : v2i) (hx : 4 ≤ size.x) (hy : 4 ≤ size.y)
    (hb : size.x * size.y < 2147483648) :
    AdjustSizeForMipmaps size (NumberOfMipLevels size) =
      some ((specMipSum size (NumberOfMipLevels size) : Nat) : Int) := by
  have hl := log2_side_lt size (by omega) (by omega) hb
  unfold AdjustSizeForMipmaps NumberOfMipLevels
  rw [mipLoop_inv size hx hy hb _ (by omega)
    (fun k hk => specLevel_not_unit size (by omega) k hk)]
  simp only [Option.some_bind, if_pos (specLevel_unit size)]

theorem toU64_cast (n : Nat) (h : n < 18446744073709551616) : toU64 (n : Int) = n := by
  unfold toU64
  omega

theorem mul64_small (a b : Nat) (h : a * b < 18446744073709551616) : mul64 a b = a * b :=
  Nat.mod_eq_of_lt h

/-- Below an area of `2^31` the `int` expression `m_size.x*m_size.y/2` is exact. -/
theorem base_length (size : v2i) (hb : size.x * size.y < 2147483648) :
    toU64 (Int.tdiv (mulInt size.x size.y) 2) = size.x * size.y / 2 := by
  have e : Int.tdiv ((size.x * size.y : Nat) : Int) 2 = ((size.x * size.y / 2 : Nat) : Int) :=
    (Int.ofNat_tdiv _ 2).symm
  unfold mulInt
  rw [toI32_small _ hb, e, toU64_cast _ (by omega)]

theorem even_area (w h : Nat) (hw : w % 4 = 0) (f : Nat) :
    f * w * h / 2 = f * (w * h / 2) := by
  obtain ⟨a, rfl⟩ : ∃ a, w = 4 * a := ⟨w / 4, by omega⟩
  have e1 : f * (4 * a) * h = f * (2 * a * h) * 2 := by ring
  have e2 : 4 * a * h = 2 * a * h * 2 := by ring
  rw [e1, e2, Nat.mul_div_cancel _ (by decide), Nat.mul_div_cancel _ (by decide)]

/-- Below `2^32` bytes the two closing statements of a creating constructor,
`if( type == Etc2_RGBA ) m_maplen *= 2; m_maplen += m_dataOffset;`, are exact. -/
theorem finish_length (type : BlockType) (n : Nat) (hn : n < 4294967296) :
    add64 (if type = BlockType.Etc2_RGBA then mul64 n 2 else n) 52 =
      52 + sizeFactor type * n := by
  unfold sizeFactor
  by_cases ht : type = BlockType.Etc2_RGBA
  · rw [if_pos ht, if_pos ht, mul64_small _ _ (by omega), add64_small _ _ (by omega)]
    omega
  · rw [if_neg ht, if_neg ht, add64_small _ _ (by omega)]
    omega

/-- The file-backed creating constructor without mipmaps, below an area of `2^31`. -/
theorem create_plain (size : v2i) (type : BlockType)
    (hx4 : size.x % 4 = 0) (hy4 : size.y % 4 = 0) (hb : size.x * size.y < 2147483648) :
    BlockData.create size false type =
      some { m_data :=
               OpenForWriting (52 + sizeFactor type * (size.x * size.y / 2)) size 1 type
             m_size := ⟨size.x, size.y⟩
             m_dataOffset := 52
             m_maplen := 52 + sizeFactor type * (size.x * size.y / 2)
             m_type := type } := by
  have h4 : size.x % 4 = 0 ∧ size.y % 4 = 0 := ⟨hx4, hy4⟩
  rw [BlockData.create, if_pos h4]
  simp only [Bool.false_eq_true, if_false, Option.map_some', base_length size hb]
  rw [finish_length type _ (by omega)]

/-- The file-backed creating constructor with mipmaps, below an area of `2^31`. -/
theorem create_mip (size : v2i) (type : BlockType)
    (hx : 0 < size.x) (hx4 : size.x % 4 = 0) (hy : 0 < size.y) (hy4 : size.y % 4 = 0)
    (hb : size.x * size.y < 2147483648) :
    BlockData.create size true type =
      some { m_data :=
               OpenForWriting
                 (52 + sizeFactor type *
                   (size.x * size.y / 2 + specMipSum size (NumberOfMipLevels size)))
                 size (NumberOfMipLevels size) type
             m_size := ⟨size.x, size.y⟩
             m_dataOffset := 52
             m_maplen := 52 + sizeFactor type *
               (size.x * size.y / 2 + specMipSum size (NumberOfMipLevels size))
             m_type := type } := by
  have h4 : size.x % 4 = 0 ∧ size.y % 4 = 0 := ⟨hx4, hy4⟩
  have hx8 : 4 ≤ size.x := by omega
  have hy8 : 4 ≤ size.y := by omega
  have hl := log2_side_lt size hx hy hb
  have hS : specMipSum size (NumberOfMipLevels size) < 1073742080 :=
    specMipSum_lt size hx8 hy8 hb (Nat.log2 (max size.x size.y)) (by omega)
  rw [BlockData.create, if_pos h4, AdjustSizeForMipmaps_levels size hx8 hy8 hb]
  simp only [if_true, Option.map_some', base_length size hb,
    toU64_cast _ (Nat.lt_trans hS (by decide))]
  rw [add64_small (size.x * size.y / 2) (specMipSum size (NumberOfMipLevels size))
    (by omega), finish_length type _ (by omega)]

set_option maxRecDepth 4096 in
/-- C13, as stated, fails for large sizes: `m_size.x*m_size.y/2` and the bytes of a
level are `int` expressions.  A 65536x65536 `Etc1` image without mipmaps gets
`m_maplen = 52` where the claim gives `52 + 65536*65536/2 = 2147483700`, and for a
131072x131072 image with its 18 levels `AdjustSizeForMipmaps` returns 715827896 where
the sum of the claim is 2863311544. -/
theorem length_wraps :
    (BlockData.create ⟨65536, 65536⟩ false BlockType.Etc1).map (fun bd => bd.m_maplen) =
      some 52 ∧
    52 + sizeFactor BlockType.Etc1 * 65536 * 65536 / 2 = 2147483700 ∧
    AdjustSizeForMipmaps ⟨131072, 131072⟩ 18 = some 715827896 ∧
    specMipSum ⟨131072, 131072⟩ 18 = 2863311544 := by
  refine ⟨by decide, by decide, ?_, ?_⟩
  · rfl
  · rfl

/-- C13, amended: for a size whose width `w` and height `h` are positive multiples of 4
with `w*h < 2^31` and every type, with
`L = NumberOfMipLevels size = floor(log2(max(w,h))) + 1`: the loop of
`AdjustSizeForMipmaps` is not at 1x1 before any of its `L-1` halvings and is at 1x1 after
them, so neither assertion fails and the call returns the sum of the specification;
creating with mipmaps gives `m_maplen = 52 + f * (w*h/2 + sum)`, creating without gives
`52 + f*w*h/2`, with `f = 2` for `Etc2_RGBA` and `1` otherwise; the heap-backed
constructor computes the same `m_maplen` as the file-backed one. -/
theorem mip_total_length (size : v2i) (type : BlockType)
    (hx : 0 < size.x) (hx4 : size.x % 4 = 0) (hy : 0 < size.y) (hy4 : size.y % 4 = 0)
    (hb : size.x * size.y < 2147483648) :
    (∀ k, k < NumberOfMipLevels size - 1 →
      ∃ s, mipLoop size (k + 1) = some s ∧ (s.2.x ≠ 1 ∨ s.2.y ≠ 1)) ∧
    (∃ s, mipLoop size (NumberOfMipLevels size) = some s ∧ s.2.x = 1 ∧ s.2.y = 1) ∧
    AdjustSizeForMipmaps size (NumberOfMipLevels size) =
      some ((specMipSum size (NumberOfMipLevels size) : Nat) : Int) ∧
    (BlockData.create size true type).map (fun bd => bd.m_maplen) =
      some (52 + sizeFactor type *
        (size.x * size.y / 2 + specMipSum size (NumberOfMipLevels size))) ∧
    (BlockData.create size false type).map (fun bd => bd.m_maplen) =
      some (52 + sizeFactor type * size.x * size.y / 2) ∧
    ∀ (init : Nat → Nat) (mipmap : Bool),
      (BlockData.createHeap init size mipmap type).map (fun bd => bd.m_maplen) =
        (BlockData.create size mipmap type).map (fun bd => bd.m_maplen) := by
  have hx8 : 4 ≤ size.x := by omega
  have hy8 : 4 ≤ size.y := by omega
  have hl := log2_side_lt size hx hy hb
  have hnot : ∀ k, k < Nat.log2 (max size.x size.y) →
      (specLevel size k).x ≠ 1 ∨ (specLevel size k).y ≠ 1 :=
    fun k hk => specLevel_not_unit size hx k hk
  have h4 : size.x % 4 = 0 ∧ size.y % 4 = 0 := ⟨hx4, hy4⟩
  refine ⟨?_, ?_, AdjustSizeForMipmaps_levels size hx8 hy8 hb, ?_, ?_, ?_⟩
  · intro k hk
    have hk2 : k < Nat.log2 (max size.x size.y) := by
      unfold NumberOfMipLevels at hk
      omega
    exact ⟨_, mipLoop_inv size hx8 hy8 hb k (by omega) (fun j hj => hnot j (by omega)),
      hnot k hk2⟩
  · exact ⟨_, mipLoop_inv size hx8 hy8 hb _ (by omega) hnot, specLevel_unit size⟩
  · rw [create_mip size type hx hx4 hy hy4 hb]
    rfl
  · rw [create_plain size type hx4 hy4 hb, even_area size.x size.y hx4]
    rfl
  · intro init mipmap
    rw [BlockData.create, BlockData.createHeap, if_pos h4, if_pos h4]
    cases mipmap
    · rfl
    · simp only [if_true, Option.map_map]
      rfl

/-- The statement of `mip_total_length` for a 16x8 `Etc2_RGBA` image: 5 levels, a mip sum
of `8*4/2 + 4*4/2 + 4*4/2 + 4*4/2 = 40`, and a length of `52 + 2 * (64 + 40) = 260`. -/
theorem mip_total_length_witness :
    AdjustSizeForMipmaps ⟨16, 8⟩ (NumberOfMipLevels ⟨16, 8⟩) = some 40 ∧
    (BlockData.create ⟨16, 8⟩ true BlockType.Etc2_RGBA).map (fun bd => bd.m_maplen) =
      some 260 ∧
    (BlockData.create ⟨16, 8⟩ false BlockType.Etc2_RGBA).map (fun bd => bd.m_maplen) =
      some 180 ∧
    (BlockData.createHeap (fun _ => 0) ⟨16, 8⟩ true BlockType.Etc2_RGBA).map
      (fun bd => bd.m_maplen) = some 260 := by
  have h := mip_total_length ⟨16, 8⟩ BlockType.Etc2_RGBA (by decide) (by decide) (by decide)
    (by decide) (by decide)
  have hL : NumberOfMipLevels ⟨16, 8⟩ = 5 := by
    unfold NumberOfMipLevels
    rw [log2_eq_of_bounds (max 16 8) 4 (by decide) (by decide)]
  rw [hL] at h
  refine ⟨hL ▸ h.2.2.1.trans (by decide), h.2.2.2.1.trans (by decide),
    h.2.2.2.2.1.trans (by decide), (h.2.2.2.2.2 _ true).trans (h.2.2.2.1.trans (by decide))⟩

/-! ## Writing a header and opening it again (C12) -/

/-- The header words that the opening constructor reads, in a buffer of at least 52
bytes that `OpenForWriting` has filled. -/
theorem OpenForWriting_words (len : Nat) (size : v2i) (levels : Nat) (type : BlockType)
    (h : 52 ≤ len) :
    OpenForWriting len size levels type 0 = 0x03525650 ∧
    OpenForWriting len size levels type 2 = pixelFormatWord type ∧
    OpenForWriting len size levels type 6 = size.y % 4294967296 ∧
    OpenForWriting len size levels type 7 = size.x % 4294967296 ∧
    OpenForWriting len size levels type 12 = 0 := by
  unfold OpenForWriting
  refine ⟨?_, ?_, ?_, ?_, ?_⟩
  · rw [if_pos (by omega)]
    rfl
  · rw [if_pos (by omega)]
    rfl
  · rw [if_pos (by omega)]
    rfl
  · rw [if_pos (by omega)]
    rfl
  · rw [if_pos (by omega)]
    rfl

/-- The file-backed creating constructor returns for every size whose coordinates are
positive multiples of 4 with an area below `2^31`, with a header of `OpenForWriting` in a
buffer of at least 52 bytes. -/
theorem create_eq (size : v2i) (mipmap : Bool) (type : BlockType)
    (hx : 0 < size.x) (hx4 : size.x % 4 = 0) (hy : 0 < size.y) (hy4 : size.y % 4 = 0)
    (hb : size.x * size.y < 2147483648) :
    ∃ levels len, 52 ≤ len ∧
      BlockData.create size mipmap type =
        some { m_data := OpenForWriting len size levels type
               m_size := ⟨size.x, size.y⟩
               m_dataOffset := 52
               m_maplen := len
               m_type := type } := by
  cases mipmap
  · exact ⟨1, _, Nat.le_add_right _ _, create_plain size type hx4 hy4 hb⟩
  · exact ⟨_, _, Nat.le_add_right _ _, create_mip size type hx hx4 hy hy4 hb⟩

theorem pvrType_pixelFormatWord (type : BlockType) :
    pvrType (pixelFormatWord type) = if type = BlockType.Dxt1 then none else some type := by
  cases type <;> rfl

/-- C12, as stated, fails for `Dxt1`: creating a 4x4 `Dxt1` image succeeds, but
`OpenForWriting` stores the pixel format 7 for it, which the `switch` of the opening
constructor does not list, so opening the written header fails. -/
theorem dxt1_header_not_opened :
    (BlockData.create ⟨4, 4⟩ false BlockType.Dxt1).isSome = true ∧
    (BlockData.create ⟨4, 4⟩ false BlockType.Dxt1).map (fun bd => bd.m_data 2) = some 7 ∧
    ((BlockData.create ⟨4, 4⟩ false BlockType.Dxt1).bind fun bd =>
      BlockData.ofFile bd.m_data bd.m_maplen).isSome = false := by
  decide

/-- C12, amended: for every mip flag and every size whose width `w` and height `h` are
positive multiples of 4 with `w*h < 2^31` (the sizes for which the `int` expression
`m_size.x*m_size.y/2` is exact), creating the image for writing succeeds; for the types
`Etc1`, `Etc2_RGB` and `Etc2_RGBA` opening the header that `OpenForWriting` has written
succeeds and gives the same width, height and type, with data offset 52; for `Dxt1`
opening it fails. -/
theorem header_roundtrip (size : v2i) (mipmap : Bool) (type : BlockType)
    (hx : 0 < size.x) (hx4 : size.x % 4 = 0) (hy : 0 < size.y) (hy4 : size.y % 4 = 0)
    (hb : size.x * size.y < 2147483648) :
    ∃ bd, BlockData.create size mipmap type = some bd ∧
      (type ≠ BlockType.Dxt1 →
        ∃ bd2, BlockData.ofFile bd.m_data bd.m_maplen = some bd2 ∧
          bd2.m_size.x = size.x ∧ bd2.m_size.y = size.y ∧ bd2.m_type = type ∧
          bd2.m_dataOffset = 52) ∧
      (type = BlockType.Dxt1 → BlockData.ofFile bd.m_data bd.m_maplen = none) := by
  obtain ⟨levels, len, hlen, hc⟩ := create_eq size mipmap type hx hx4 hy hy4 hb
  obtain ⟨w0, w2, w6, w7, w12⟩ := OpenForWriting_words len size levels type hlen
  have h1 : size.x ≤ size.x * size.y := Nat.le_mul_of_pos_right _ hy
  have h2 : size.y ≤ size.x * size.y := Nat.le_mul_of_pos_left _ hx
  have ex : toI32 (size.x % 4294967296) = (size.x : Int) := by
    rw [Nat.mod_eq_of_lt (by omega), toI32_small _ (by omega)]
  have ey : toI32 (size.y % 4294967296) = (size.y : Int) := by
    rw [Nat.mod_eq_of_lt (by omega), toI32_small _ (by omega)]
  refine ⟨_, hc, ?_, ?_⟩
  · intro ht
    simp only [BlockData.ofFile, w0, w2, w6, w7, w12, if_true, pvrType_pixelFormatWord,
      if_neg ht, Option.map_some', ex, ey]
    exact ⟨_, rfl, rfl, rfl, rfl, rfl⟩
  · intro ht
    simp only [BlockData.ofFile, w0, w2, if_true, pvrType_pixelFormatWord, if_pos ht,
      Option.map_none']

/-- The statement of `header_roundtrip` for a 8x4 `Etc2_RGBA` image with mipmaps. -/
theorem header_roundtrip_witness :
    ∃ bd, BlockData.create ⟨8, 4⟩ true BlockType.Etc2_RGBA = some bd ∧
      ∃ bd2, BlockData.ofFile bd.m_data bd.m_maplen = some bd2 ∧
        bd2.m_size.x = 8 ∧ bd2.m_size.y = 4 ∧ bd2.m_type = BlockType.Etc2_RGBA ∧
        bd2.m_dataOffset = 52 := by
  obtain ⟨bd, h1, h2, -⟩ := header_roundtrip ⟨8, 4⟩ true BlockType.Etc2_RGBA (by decide)
    (by decide) (by decide) (by decide) (by decide)
  exact ⟨bd, h1, h2 (by decide)⟩

/-! ## The bytes of a mip level (C20) -/

theorem max4_eq (x : Nat) (h0 : 0 < x) (h : x ≤ 4 ∨ x % 4 = 0) :
    max 4 x = 4 * ((x + 3) / 4) := by
  omega

/-- A level whose coordinates are each at most 4 or a multiple of 4: the exact formula
gives the bytes of its tiles. -/
theorem level_bytes_eq_tileBytes (current : v2i) (hx0 : 0 < current.x)
    (hy0 : 0 < current.y) (hx : current.x ≤ 4 ∨ current.x % 4 = 0)
    (hy : current.y ≤ 4 ∨ current.y % 4 = 0) :
    max 4 current.x * max 4 current.y / 2 = tileBytes current := by
  unfold tileBytes
  rw [max4_eq _ hx0 hx, max4_eq _ hy0 hy]
  have e : 4 * ((current.x + 3) / 4) * (4 * ((current.y + 3) / 4)) =
      8 * ((current.x + 3) / 4) * ((current.y + 3) / 4) * 2 := by ring
  rw [e, Nat.mul_div_cancel _ (by decide)]

theorem two_pow_aligned (m : Nat) : 2 ^ m ≤ 4 ∨ 2 ^ m % 4 = 0 := by
  rcases Nat.lt_or_ge m 2 with h | h
  · left
    interval_cases m <;> decide
  · right
    obtain ⟨n, rfl⟩ : ∃ n, m = n + 2 := ⟨m - 2, by omega⟩
    rw [pow_add]
    omega

theorem two_pow_level (a k : Nat) : max 1 (2 ^ a / 2 ^ k) = 2 ^ (a - k) := by
  rcases Nat.lt_or_ge a k with h | h
  · have : 2 ^ a / 2 ^ k = 0 :=
      Nat.div_eq_of_lt (Nat.pow_lt_pow_right (by decide) h)
    have e : a - k = 0 := by omega
    rw [this, e]
    rfl
  · rw [Nat.pow_div h (by decide)]
    have : 0 < 2 ^ (a - k) := Nat.two_pow_pos _
    omega

/-- Every level of an image whose width and height are powers of two has coordinates that
are each at most 4 or a multiple of 4. -/
theorem specLevel_two_pow (a b k : Nat) :
    ((specLevel ⟨2 ^ a, 2 ^ b⟩ k).x ≤ 4 ∨ (specLevel ⟨2 ^ a, 2 ^ b⟩ k).x % 4 = 0) ∧
    ((specLevel ⟨2 ^ a, 2 ^ b⟩ k).y ≤ 4 ∨ (specLevel ⟨2 ^ a, 2 ^ b⟩ k).y % 4 = 0) := by
  simp only [specLevel, two_pow_level]
  exact ⟨two_pow_aligned _, two_pow_aligned _⟩

/-- C20, as stated, fails: a 12x12 image has 4 levels, and its level 1 is 6x6.  The loop
of `AdjustSizeForMipmaps` adds `6*6/2 = 18` bytes for it, not a multiple of 8 and less
than the `8*2*2 = 32` bytes of its four tiles; the whole chain gets 34 bytes where the
tiles of the levels 6x6, 3x3 and 1x1 take 48. -/
theorem mip_level_6x6_too_small :
    (mipLoop ⟨12, 12⟩ 2).map (fun s => (s.1, s.2.x, s.2.y)) = some (18, 6, 6) ∧
    mipLevelBytes ⟨6, 6⟩ = 18 ∧ tileBytes ⟨6, 6⟩ = 32 ∧
    AdjustSizeForMipmaps ⟨12, 12⟩ 4 = some 34 ∧
    tileBytes ⟨6, 6⟩ + tileBytes ⟨3, 3⟩ + tileBytes ⟨1, 1⟩ = 48 := by
  decide

/-- The exact formula of a level holds the whole tiles that fit into it, one at the
least. -/
theorem tiles_le_level_bytes (current : v2i) :
    8 * max 1 (current.x / 4) * max 1 (current.y / 4) ≤
      max 4 current.x * max 4 current.y / 2 := by
  have a : 4 * max 1 (current.x / 4) ≤ max 4 current.x := by omega
  have b : 4 * max 1 (current.y / 4) ≤ max 4 current.y := by omega
  have e : 8 * max 1 (current.x / 4) * max 1 (current.y / 4) * 2 =
      4 * max 1 (current.x / 4) * (4 * max 1 (current.y / 4)) := by ring
  rw [Nat.le_div_iff_mul_le (by decide), e]
  exact Nat.mul_le_mul a b

/-- C20, amended: for every size whose width `w` and height `h` are positive multiples of
4 with `w*h < 2^31`, with the level count `floor(log2(max(w,h))) + 1`, the loop of
`AdjustSizeForMipmaps` reaches every level `k` below the level count; the bytes reserved
for a level x by y are `max(4,x)*max(4,y)/2` without overflow, and are at least
`8*max(1,floor(x/4))*max(1,floor(y/4))`, the bytes of the whole 4x4 tiles that fit into
it (one at the least); and when each of x and y is at most 4 or a multiple of 4 they are
exactly `8*ceil(x/4)*ceil(y/4)`, a multiple of 8. -/
theorem mip_level_bytes (size : v2i) (k : Nat)
    (hx : 0 < size.x) (hx4 : size.x % 4 = 0) (hy : 0 < size.y) (hy4 : size.y % 4 = 0)
    (hb : size.x * size.y < 2147483648) (hk : k < NumberOfMipLevels size) :
    ∃ s, mipLoop size (k + 1) = some s ∧ s.2 = specLevel size k ∧
      mipLevelBytes s.2 = ((max 4 s.2.x * max 4 s.2.y / 2 : Nat) : Int) ∧
      ((8 * max 1 (s.2.x / 4) * max 1 (s.2.y / 4) : Nat) : Int) ≤ mipLevelBytes s.2 ∧
      ((s.2.x ≤ 4 ∨ s.2.x % 4 = 0) → (s.2.y ≤ 4 ∨ s.2.y % 4 = 0) →
        mipLevelBytes s.2 = ((tileBytes s.2 : Nat) : Int) ∧
        (8 : Int) ∣ mipLevelBytes s.2) := by
  have hx8 : 4 ≤ size.x := by omega
  have hy8 : 4 ≤ size.y := by omega
  have hl := log2_side_lt size hx hy hb
  have hk2 : k ≤ Nat.log2 (max size.x size.y) := by
    unfold NumberOfMipLevels at hk
    omega
  have hnot : ∀ j, j < k → (specLevel size j).x ≠ 1 ∨ (specLevel size j).y ≠ 1 :=
    fun j hj => specLevel_not_unit size hx j (by omega)
  have hm := mipLevelBytes_level size k hx8 hy8 hb
  refine ⟨_, mipLoop_inv size hx8 hy8 hb k (by omega) hnot, rfl, hm, ?_, ?_⟩
  · rw [hm]
    exact Int.ofNat_le.2 (tiles_le_level_bytes _)
  · intro hlx hly
    have hb2 : max 4 (specLevel size k).x * max 4 (specLevel size k).y / 2 =
        tileBytes (specLevel size k) := by
      apply level_bytes_eq_tileBytes _ _ _ hlx hly
      · simp only [specLevel]
        omega
      · simp only [specLevel]
        omega
    refine ⟨by rw [hm, hb2], ?_⟩
    rw [hm, hb2]
    simp only [tileBytes, Nat.mul_assoc]
    exact Int.natCast_dvd_natCast.2 (Nat.dvd_mul_right _ _)

/-- The statement of `mip_level_bytes` for level 1 of a 16x8 image, which is 8x4 and gets
`8*4/2 = 16` bytes, the bytes of its two tiles. -/
theorem mip_level_bytes_witness :
    ∃ s, mipLoop ⟨16, 8⟩ (1 + 1) = some s ∧ s.2 = specLevel ⟨16, 8⟩ 1 ∧
      mipLevelBytes s.2 = 16 ∧ tileBytes s.2 = 16 := by
  obtain ⟨s, h1, h2, -, -, h4⟩ := mip_level_bytes ⟨16, 8⟩ 1 (by decide) (by decide)
    (by decide) (by decide) (by decide)
    (by
      unfold NumberOfMipLevels
      rw [log2_eq_of_bounds (max 16 8) 4 (by decide) (by decide)]
      decide)
  have e : mipLevelBytes s.2 = 16 := by
    rw [h2]
    decide
  have e2 : tileBytes s.2 = 16 := by
    rw [h2]
    decide
  exact ⟨s, h1, h2, e, e2⟩

end Etcpak
